import Mathlib

/-!
Grammar analysis engine of `TypeScript.NET/Grammar.cpp`

A shallow embedding of the FIRST / FOLLOW computation, of `Closure` and of
`GoTo` of `Grammar.cpp`.

* `std::set<string>` is a list of strings kept in increasing order without
  repetitions; `size()` is the length of the list, `find` is list membership.
* `std::map<string, V>` is a list of key/value pairs kept in increasing key
  order; `find` is `mapFind`, the value read through `operator[]` is `mapGet`,
  the entry that `operator[]` creates for a missing key is `mapTouch`, and the
  assignment `m[k] = v` is `mapSet`.
* `std::string::operator<` is the lexicographic order on the characters
  (on UTF-8 text the byte order and the code point order agree).
* Inserting a range of a set into that same set (`E -> E + T` makes
  `ComputeFirstStep` insert `first[E]` into `first[E]`) leaves the set as it
  is.
* The `int` counters (`currentSize`, `added`, the values returned by the step
  functions) are unbounded integers: set sizes stay far below `2^31`.
* An index that runs out of the range of a vector (`rhs[0]` of an empty body)
  makes the step return `none`.
* The `do ... while (added != 0)` loops take a bound on the number of passes
  and return `none` when the bound is reached before a pass reports `0`.
* `std::set<Item>` is the list of its elements in iteration order. An
  insertion looks for the first element that is not less than the new one and
  compares the two once more the other way round; for an `operator<` that is a
  strict weak ordering this is what the container does, and for the
  `operator<` of the source, which is not one, it is the reading that the
  embedding fixes. The loop over the item set, which inserts into the set it
  runs over, takes a bound on the number of items as well.
-/

namespace TypeScriptNET

/-! ## Strings, sets and maps -/

/-- Lexicographic comparison of two character sequences. -/
def charsLess : List Char → List Char → Bool
  | [], [] => false
  | [], _ :: _ => true
  | _ :: _, [] => false
  | a :: s, b :: t =>
    if a.toNat < b.toNat then true
    else if b.toNat < a.toNat then false
    else charsLess s t

/-- The order `std::string::operator<`. -/
def strLess (a b : String) : Bool := charsLess a.data b.data

abbrev StrSet := List String

abbrev RuleBody := List String

abbrev RuleList := List RuleBody

abbrev StrMap (V : Type) := List (String × V)

/-- Position-respecting insertion of a string that is not yet in the set. -/
def setPlace (a : String) : StrSet → StrSet
  | [] => [a]
  | b :: t => if strLess a b then a :: b :: t else b :: setPlace a t

/-- The member test `s.find(a) != s.end()`. -/
def setContains (a : String) (s : StrSet) : Bool := decide (a ∈ s)

/-- The call `s.insert(a)`. -/
def setInsert (a : String) (s : StrSet) : StrSet :=
  if a ∈ s then s else setPlace a s

/-- The call `dst.insert(src.begin(), src.end())`. -/
def setInsertRange (src dst : StrSet) : StrSet :=
  src.foldl (fun acc x => setInsert x acc) dst

/-- Removal of `a` from the set, when it is there. -/
def setErase (a : String) (s : StrSet) : StrSet :=
  s.filter (fun x => x != a)

/-- The lookup `m.find(k)`. -/
def mapFind {V : Type} (k : String) : StrMap V → Option V
  | [] => none
  | p :: t => if p.1 = k then some p.2 else mapFind k t

/-- Position-respecting insertion of a key that is not yet in the map. -/
def mapPlace {V : Type} (k : String) (v : V) : StrMap V → StrMap V
  | [] => [(k, v)]
  | p :: t => if strLess k p.1 then (k, v) :: p :: t else p :: mapPlace k v t

/-- Replacement of the value stored under an existing key. -/
def mapReplace {V : Type} (k : String) (v : V) : StrMap V → StrMap V
  | [] => []
  | p :: t => if p.1 = k then (p.1, v) :: t else p :: mapReplace k v t

/-- The value that `m[k]` reads: the stored one, or the default `d` of a
freshly created entry. -/
def mapGet {V : Type} (k : String) (d : V) (m : StrMap V) : V :=
  (mapFind k m).getD d

/-- The effect of evaluating `m[k]` on the map: a missing key gets an entry
holding the default `d`. -/
def mapTouch {V : Type} (k : String) (d : V) (m : StrMap V) : StrMap V :=
  if (mapFind k m).isSome then m else mapPlace k d m

/-- The assignment `m[k] = v`. -/
def mapSet {V : Type} (k : String) (v : V) (m : StrMap V) : StrMap V :=
  if (mapFind k m).isSome then mapReplace k v m else mapPlace k v m

/-! ## The reserved symbols -/

def EPSILON : String := "EPSILON"

def ENDMARKER : String := "ENDMARKER"

def AUGMENTED_START : String := "AUGMENTED_START"

/-! ## The grammar object -/

/-- The data members of `class Grammar` that the constructor fills in. -/
structure Grammar where
  startSymbol : String
  rules : StrMap RuleList
  nonterminals : StrSet
  terminals : StrSet
  first : StrMap StrSet
  follow : StrMap StrSet
deriving DecidableEq, Repr

/-! ## `ComputeFirstStep` and `ComputeFirst` -/

/-- The lambda `equalsEpsilon`: `rhs.size() == 1 && rhs[0] == EPSILON()`. -/
def equalsEpsilon (rhs : RuleBody) : Bool :=
  match rhs with
  | [x] => x == EPSILON
  | _ => false

/-- The `while` loop of `ComputeFirstStep` (lines 102-107) on the body `rhs`,
with state `index`, `current` and the FIRST table. It runs at most
`rhs.size() - 1` times, so `rhs.length` rounds are always enough. -/
def firstStepWhile (symbol : String) (rhs : RuleBody) :
    Nat → Nat → String → StrMap StrSet → Nat × String × StrMap StrSet
  | 0, index, current, first => (index, current, first)
  | fuel + 1, index, current, first =>
    let first := mapTouch current [] first
    if setContains EPSILON (mapGet current [] first) && decide (index < rhs.length - 1) then
      -- string& next = rhs[index++];
      let next := rhs.getD index ""
      let first := mapTouch next [] first
      let first := mapSet symbol (setInsertRange (mapGet next [] first) (mapGet symbol [] first)) first
      firstStepWhile symbol rhs fuel (index + 1) next first
    else (index, current, first)

/-- One round of the `for (auto& rhs : symbolRules)` loop of
`ComputeFirstStep` (lines 98-117). An empty body has no `rhs[0]`. -/
def firstStepBody (symbol : String) (rhs : RuleBody) (first : StrMap StrSet) :
    Option (StrMap StrSet) :=
  match rhs with
  | [] => none
  | current :: _ =>
    let first := mapTouch current [] first
    let first := mapSet symbol (setInsertRange (mapGet current [] first) (mapGet symbol [] first)) first
    match firstStepWhile symbol rhs rhs.length 0 current first with
    | (index, current, first) =>
      if index == rhs.length - 1 && setContains EPSILON (mapGet current [] first) then
        some (mapSet symbol (setInsertRange (mapGet current [] first) (mapGet symbol [] first)) first)
      else
        some (mapSet symbol (setErase EPSILON (mapGet symbol [] first)) first)

/-- The `for (auto& rhs : symbolRules)` loop of `ComputeFirstStep`. -/
def firstStepRules (symbol : String) : RuleList → StrMap StrSet → Option (StrMap StrSet)
  | [], first => some first
  | rhs :: rest, first =>
    match firstStepBody symbol rhs first with
    | none => none
    | some first => firstStepRules symbol rest first

/-- `int Grammar::ComputeFirstStep(string symbol)`: the grammar after the
call and the returned count. -/
def Grammar.ComputeFirstStep (g : Grammar) (symbol : String) : Option (Grammar × Int) :=
  let rules := mapTouch symbol [] g.rules
  let symbolRules := mapGet symbol [] rules
  if (mapFind symbol g.first).isNone then
    let s : StrSet := if symbolRules.any equalsEpsilon then setInsert EPSILON [] else []
    some ({ g with rules := rules, first := mapSet symbol s g.first }, (s.length : Int))
  else
    let currentSize : Int := (mapGet symbol [] g.first).length
    match firstStepRules symbol symbolRules g.first with
    | none => none
    | some first =>
      some ({ g with rules := rules, first := first },
        ((mapGet symbol [] first).length : Int) - currentSize)

/-- One pass `for (auto& nonterminal : this->nonterminals)` of `ComputeFirst`,
summing the returned counts into `added`. -/
def firstPass : List String → Grammar → Int → Option (Grammar × Int)
  | [], g, added => some (g, added)
  | nonterminal :: rest, g, added =>
    match g.ComputeFirstStep nonterminal with
    | none => none
    | some (g, n) => firstPass rest g (added + n)

/-- The `do ... while (added != 0)` loop of `ComputeFirst`, at most `fuel`
passes. -/
def firstLoop : Nat → Grammar → Option Grammar
  | 0, _ => none
  | fuel + 1, g =>
    match firstPass g.nonterminals g 0 with
    | none => none
    | some (g, added) => if added != 0 then firstLoop fuel g else some g

/-- The seeding loop of `ComputeFirst`: `first[terminal] = { terminal }`. -/
def seedFirst (ts : List String) (first : StrMap StrSet) : StrMap StrSet :=
  ts.foldl (fun acc terminal => mapSet terminal (setInsert terminal []) acc) first

/-- `void Grammar::ComputeFirst()`. -/
def Grammar.ComputeFirst (fuel : Nat) (g : Grammar) : Option Grammar :=
  firstLoop fuel { g with first := seedFirst g.terminals g.first }

/-! ## `ComputeFirstWord` -/

/-- The `while` loop of `ComputeFirstWord` (lines 169-174), with state
`index`, `current`, the FIRST table and `wordFirst`. -/
def firstWordWhile (word : List String) :
    Nat → Nat → String → StrMap StrSet → StrSet → Nat × String × StrMap StrSet × StrSet
  | 0, index, current, first, wordFirst => (index, current, first, wordFirst)
  | fuel + 1, index, current, first, wordFirst =>
    let first := mapTouch current [] first
    if setContains EPSILON (mapGet current [] first) && decide (index < word.length - 1) then
      -- const string& next = word[index++];
      let next := word.getD index ""
      let first := mapTouch next [] first
      let wordFirst := setInsertRange (mapGet next [] first) wordFirst
      firstWordWhile word fuel (index + 1) next first wordFirst
    else (index, current, first, wordFirst)

/-- `set<string> Grammar::ComputeFirstWord(const vector<string>& word)`: the
grammar after the call (reading `first[x]` creates missing entries) and the
returned set. -/
def Grammar.ComputeFirstWord (g : Grammar) (word : List String) : Grammar × StrSet :=
  match word with
  | [] => (g, [])
  | current :: _ =>
    let first := mapTouch current [] g.first
    let wordFirst := setInsertRange (mapGet current [] first) []
    match firstWordWhile word word.length 0 current first wordFirst with
    | (index, current, first, wordFirst) =>
      if index == word.length - 1 && setContains EPSILON (mapGet current [] first) then
        ({ g with first := first }, setInsertRange (mapGet current [] first) wordFirst)
      else
        ({ g with first := first }, setErase EPSILON wordFirst)

/-! ## `ComputeFollowStep` and `ComputeFollow` -/

/-- The loop `for (auto it = rhs.begin(); it != rhs.end(); ++it)` of
`ComputeFollowStep` (lines 200-222); the argument list is the part of the body
from `it` on. -/
def followStepBody (symbol : String) : List String → Grammar → Int → Grammar × Int
  | [], g, added => (g, added)
  | x :: beta, g, added =>
    if setContains x g.nonterminals then
      let follow := mapTouch x [] g.follow
      let currentSize : Int := (mapGet x [] follow).length
      let isLast := beta.isEmpty
      match Grammar.ComputeFirstWord { g with follow := follow } beta with
      | (g, firstBeta) =>
        -- Case 2
        let follow :=
          if !isLast then mapSet x (setInsertRange firstBeta (mapGet x [] g.follow)) g.follow
          else g.follow
        -- Case 3
        let followedByEpsilon := setContains EPSILON firstBeta
        let follow :=
          if isLast || followedByEpsilon then
            let follow := mapTouch symbol [] follow
            mapSet x (setInsertRange (mapGet symbol [] follow) (mapGet x [] follow)) follow
          else follow
        followStepBody symbol beta { g with follow := follow }
          (added + (((mapGet x [] follow).length : Int) - currentSize))
    else followStepBody symbol beta g added

/-- The loop `for (auto& rhs : symbolRules)` of `ComputeFollowStep`. -/
def followStepRules (symbol : String) : RuleList → Grammar → Int → Grammar × Int
  | [], g, added => (g, added)
  | rhs :: rest, g, added =>
    match followStepBody symbol rhs g added with
    | (g, added) => followStepRules symbol rest g added

/-- `int Grammar::ComputeFollowStep(std::string symbol)`. -/
def Grammar.ComputeFollowStep (g : Grammar) (symbol : String) : Grammar × Int :=
  let rules := mapTouch symbol [] g.rules
  let symbolRules := mapGet symbol [] rules
  if (mapFind symbol g.follow).isNone then
    ({ g with rules := rules, follow := mapSet symbol [] g.follow }, 1)
  else
    followStepRules symbol symbolRules { g with rules := rules } 0

/-- One pass `for (auto& nonterminal : this->nonterminals)` of
`ComputeFollow`. -/
def followPass : List String → Grammar → Int → Grammar × Int
  | [], g, added => (g, added)
  | nonterminal :: rest, g, added =>
    match g.ComputeFollowStep nonterminal with
    | (g, n) => followPass rest g (added + n)

/-- The `do ... while (added != 0)` loop of `ComputeFollow`, at most `fuel`
passes. -/
def followLoop : Nat → Grammar → Option Grammar
  | 0, _ => none
  | fuel + 1, g =>
    match followPass g.nonterminals g 0 with
    | (g, added) => if added != 0 then followLoop fuel g else some g

/-- The closing loop of `ComputeFollow`: EPSILON is erased from every entry. -/
def eraseEpsilons (follow : StrMap StrSet) : StrMap StrSet :=
  follow.map (fun pair => (pair.1, setErase EPSILON pair.2))

/-- `void Grammar::ComputeFollow()`. -/
def Grammar.ComputeFollow (fuel : Nat) (g : Grammar) : Option Grammar :=
  match followLoop fuel { g with follow := mapSet g.startSymbol (setInsert ENDMARKER []) g.follow } with
  | none => none
  | some g => some { g with follow := eraseEpsilons g.follow }

/-! ## The constructor -/

/-- The loop over `this->rules` of the constructor (lines 46-58): the sets
`nonterminals` and `symbols`. -/
def collectSymbols : StrMap RuleList → StrSet × StrSet → StrSet × StrSet
  | [], acc => acc
  | pair :: rest, (nonterminals, symbols) =>
    collectSymbols rest
      (setInsert pair.1 nonterminals,
        pair.2.foldl (fun acc rhs => setInsertRange rhs acc) (setInsert pair.1 symbols))

/-- The `set_difference` call of the constructor: the symbols that are not
nonterminals, inserted one by one into the empty `terminals`. -/
def setDifference (symbols nonterminals : StrSet) : StrSet :=
  setInsertRange (symbols.filter (fun s => !setContains s nonterminals)) []

/-- The constructor up to the calls of `ComputeFirst` and `ComputeFollow`
(lines 41-73). -/
def Grammar.init (start : String) (rules : StrMap RuleList) (shouldAugment : Bool) : Grammar :=
  match collectSymbols rules ([], []) with
  | (nonterminals, symbols) =>
    let terminals := setDifference symbols nonterminals
    if shouldAugment then
      { startSymbol := AUGMENTED_START
        rules := mapSet AUGMENTED_START [[start]] rules
        nonterminals := setInsert AUGMENTED_START nonterminals
        terminals := setInsert ENDMARKER terminals
        first := []
        follow := [] }
    else
      { startSymbol := start
        rules := rules
        nonterminals := nonterminals
        terminals := terminals
        first := []
        follow := [] }

/-- `Grammar::Grammar(string start, map<string, RuleList> rules, bool
shouldAugment)`. (The name `Grammar.Grammar` would hide the type.) -/
def Grammar.construct (fuel : Nat) (start : String) (rules : StrMap RuleList)
    (shouldAugment : Bool) : Option Grammar :=
  match (Grammar.init start rules shouldAugment).ComputeFirst fuel with
  | none => none
  | some g => g.ComputeFollow fuel

/-! ## LR(1) items, item sets and `Closure` -/

/-- Modelled from the spec: `struct Item`, which `Grammar.h` declares and the
sources do not include. The tuple (head, rule index, dot index, lookahead)
with the field names that `Grammar.cpp` uses; the two indices are signed
integers, as `distance(it, bodies.begin())` is assigned to `RuleIndex`. -/
structure Item where
  ProductionHead : String
  RuleIndex : Int
  DotIndex : Int
  Lookahead : String
deriving DecidableEq, Repr

/-- `bool operator<(const Item& first, const Item& second)` (lines 12-17). -/
def itemLess (first second : Item) : Bool :=
  strLess first.ProductionHead second.ProductionHead &&
    decide (first.RuleIndex < second.RuleIndex) &&
    decide (first.DotIndex < second.RuleIndex)

/-- The element `v[i]` of a vector; an index outside `0 .. v.size() - 1` has
none. -/
def vectorAt {α : Type} (v : List α) (i : Int) : Option α :=
  if 0 ≤ i then v.get? i.toNat else none

/-- The call `setOfItems.insert(x)` on a `std::set<Item>` ordered by
`itemLess`, the set being the list of its elements in iteration order: `x`
goes before the first element that is not less than `x`, unless `x` is not
less than that element either (then the container takes them for the same
element and inserts nothing). The result is the position of the new element,
if there is one, and the set after the call. -/
def itemSetInsert (x : Item) : List Item → Option Nat × List Item
  | [] => (some 0, [x])
  | e :: t =>
    if itemLess e x then
      match itemSetInsert x t with
      | (p, t) => (p.map (fun i => i + 1), e :: t)
    else if itemLess x e then (some 0, x :: e :: t)
    else (none, e :: t)

/-- The position of the element an iterator points to, after an insertion at
position `p`. -/
def cursorAfter (p : Option Nat) (pos : Nat) : Nat :=
  match p with
  | some i => if i ≤ pos then pos + 1 else pos
  | none => pos

/-- The loop `for (auto& terminal : firstTail)` of `Closure` (lines 274-282)
for the body with `RuleIndex = ruleIndex`; the state is the item set and the
position of the item that the outer loop is at. -/
def closureTerminals (nonterminal : String) (ruleIndex : Int) :
    List String → List Item × Nat → List Item × Nat
  | [], st => st
  | terminal :: rest, (items, pos) =>
    let newItem : Item :=
      { ProductionHead := nonterminal, Lookahead := terminal, RuleIndex := ruleIndex, DotIndex := 0 }
    match itemSetInsert newItem items with
    | (p, items) => closureTerminals nonterminal ruleIndex rest (items, cursorAfter p pos)

/-- The loop `for (auto it = bodies.begin(); it != bodies.end(); it++)` of
`Closure` (lines 272-283); `k` is the number of bodies before `it`, so
`distance(it, bodies.begin())` is `-k`. -/
def closureBodies (nonterminal : String) (firstTail : StrSet) :
    Nat → RuleList → List Item × Nat → List Item × Nat
  | _, [], st => st
  | k, _ :: rest, st =>
    closureBodies nonterminal firstTail (k + 1) rest
      (closureTerminals nonterminal (-(k : Int)) firstTail st)

/-- The loop `for (auto& item : setOfItems)` of `Closure` (lines 259-284)
from the item at position `pos` on, at most `fuel` items. Items inserted
behind the current one are visited in the same loop. -/
def closureFor : Nat → Grammar → List Item → Nat → Option (Grammar × List Item)
  | 0, _, _, _ => none
  | fuel + 1, g, items, pos =>
    match items.get? pos with
    | none => some (g, items)
    | some item =>
      let rules := mapTouch item.ProductionHead [] g.rules
      match vectorAt (mapGet item.ProductionHead [] rules) item.RuleIndex with
      | none => none
      | some body =>
        match vectorAt body item.DotIndex with
        | none => none
        | some nonterminal =>
          if !setContains nonterminal g.nonterminals then
            closureFor fuel { g with rules := rules } items (pos + 1)
          else
            let tail := body.drop (item.DotIndex.toNat + 1) ++ [item.Lookahead]
            match Grammar.ComputeFirstWord { g with rules := rules } tail with
            | (g, firstTail) =>
              let rules := mapTouch nonterminal [] g.rules
              match closureBodies nonterminal firstTail 0 (mapGet nonterminal [] rules)
                  (items, pos) with
              | (items, pos) => closureFor fuel { g with rules := rules } items (pos + 1)

/-- The `do ... while (added != 0)` loop of `Closure`, at most `fuel` passes
of at most `bound` items each; `added` is what the counter holds when the pass
begins (it is set to 0 before the loop only). -/
def closureLoop (bound : Nat) : Nat → Grammar → List Item → Int → Option (Grammar × List Item)
  | 0, _, _, _ => none
  | fuel + 1, g, setOfItems, added =>
    let currentSize : Int := setOfItems.length
    match closureFor bound g setOfItems 0 with
    | none => none
    | some (g, setOfItems) =>
      let added := added + ((setOfItems.length : Int) - currentSize)
      if added != 0 then closureLoop bound fuel g setOfItems added else some (g, setOfItems)

/-- `set<Item>& Grammar::Closure(set<Item>& setOfItems)`: the grammar after
the call (`operator[]` creates missing entries of `rules` and `first`) and the
set after the call. -/
def Grammar.Closure (g : Grammar) (fuel : Nat) (setOfItems : List Item) :
    Option (Grammar × List Item) :=
  closureLoop fuel fuel g setOfItems 0

/-- `set<Item> GoTo(const std::set<Item>& setOfItems, const std::string&
terminal)` (lines 291-294). -/
def GoTo (_setOfItems : List Item) (_terminal : String) : List Item := []

/-! ## GOTO as the specification words it -/

/-- The items of `I` that have the dot immediately before `X`, with the dot
moved over `X`: the set `J` of the specification of GOTO. -/
def advanceDot (g : Grammar) (I : List Item) (X : String) : List Item :=
  (I.filter (fun item =>
    decide ((vectorAt (mapGet item.ProductionHead [] g.rules) item.RuleIndex).bind
      (fun body => vectorAt body item.DotIndex) = some X))).map
    (fun item => { item with DotIndex := item.DotIndex + 1 })

/-- GOTO as the specification words it: the closure of the advanced items. -/
def gotoSpec (g : Grammar) (fuel : Nat) (I : List Item) (X : String) :
    Option (Grammar × List Item) :=
  g.Closure fuel (advanceDot g I X)

/-! ## The grammars of the scenarios -/

/-- The grammar `E -> E + T | T`, `T -> T * F | F`, `F -> ( E ) | id`. -/
def exprRules : StrMap RuleList :=
  [("E", [["E", "+", "T"], ["T"]]),
   ("F", [["(", "E", ")"], ["id"]]),
   ("T", [["T", "*", "F"], ["F"]])]

/-- The grammar `S -> A B c`, `A -> a | EPSILON`, `B -> b | EPSILON`. -/
def nullableRules : StrMap RuleList :=
  [("A", [["a"], ["EPSILON"]]),
   ("B", [["b"], ["EPSILON"]]),
   ("S", [["A", "B", "c"]])]


/-- The grammar `A -> EPSILON | a`, the EPSILON alternative first. -/
def epsilonFirstRules : StrMap RuleList :=
  [("A", [["EPSILON"], ["a"]])]

/-- The grammar `S -> a`. -/
def singleRules : StrMap RuleList :=
  [("S", [["a"]])]

/-- The grammar `S -> C C`, `C -> c C | d`. -/
def ccRules : StrMap RuleList :=
  [("C", [["c", "C"], ["d"]]),
   ("S", [["C", "C"]])]

/-- The item (AUGMENTED_START, rule 0, dot 0, ENDMARKER). -/
def initialItem : Item :=
  { ProductionHead := AUGMENTED_START, RuleIndex := 0, DotIndex := 0, Lookahead := ENDMARKER }

/-- The five items that the closure of the initial item of the augmented
grammar `S -> C C`, `C -> c C | d` is expected to hold: (S, 0, 0, ENDMARKER),
(C, 0, 0, c), (C, 0, 0, d), (C, 1, 0, c), (C, 1, 0, d). -/
def closureExpected : List Item :=
  [⟨"S", 0, 0, ENDMARKER⟩, ⟨"C", 0, 0, "c"⟩, ⟨"C", 0, 0, "d"⟩, ⟨"C", 1, 0, "c"⟩,
    ⟨"C", 1, 0, "d"⟩]

/-- The three items that `GOTO(I0, C)` is expected to hold for the augmented
grammar `S -> C C`, `C -> c C | d`: (S, 0, 1, ENDMARKER), (C, 0, 0, ENDMARKER),
(C, 1, 0, ENDMARKER). -/
def gotoExpected : List Item :=
  [⟨"S", 0, 1, ENDMARKER⟩, ⟨"C", 0, 0, ENDMARKER⟩, ⟨"C", 1, 0, ENDMARKER⟩]

/-- The grammar `S -> a EPSILON`, whose only body holds EPSILON next to
another symbol. -/
def mixedRules : StrMap RuleList :=
  [("S", [["a", "EPSILON"]])]

/-- The grammar `A -> B`, `B -> EPSILON | C`, `C -> A`. -/
def cycleRules : StrMap RuleList :=
  [("A", [["B"]]), ("B", [["EPSILON"], ["C"]]), ("C", [["A"]])]

/-- The grammar object of `cycleRules` (start symbol `A`, not augmented)
holding the FIRST table `first`. -/
def cycleState (first : StrMap StrSet) : Grammar :=
  { startSymbol := "A"
    rules := cycleRules
    nonterminals := ["A", "B", "C"]
    terminals := ["EPSILON"]
    first := first
    follow := [] }

/-- The FIRST table of `cycleRules` after the passes 1, 3, 5, ... -/
def cycleFirstOdd : StrMap StrSet :=
  [("A", []), ("B", ["EPSILON"]), ("C", []), ("EPSILON", ["EPSILON"])]

/-- The FIRST table of `cycleRules` after the passes 2, 4, 6, ... -/
def cycleFirstEven : StrMap StrSet :=
  [("A", ["EPSILON"]), ("B", []), ("C", ["EPSILON"]), ("EPSILON", ["EPSILON"])]

/-- The grammar object of `S -> A B c`, `A -> a | EPSILON`, `B -> b | EPSILON`
as `ComputeFirst` leaves it. -/
def nullableState : Grammar :=
  { startSymbol := "S"
    rules := nullableRules
    nonterminals := ["A", "B", "S"]
    terminals := ["EPSILON", "a", "b", "c"]
    first := [("A", ["EPSILON", "a"]), ("B", ["EPSILON", "b"]), ("EPSILON", ["EPSILON"]),
      ("S", ["EPSILON", "a", "b"]), ("a", ["a"]), ("b", ["b"]), ("c", ["c"])]
    follow := [] }

/-- The grammar `T -> x | A`, `A -> y`. -/
def altRules : StrMap RuleList :=
  [("A", [["y"]]), ("T", [["x"], ["A"]])]

/-- The grammar object that the constructor returns for `altRules` with start
symbol `T`, augmented. -/
def altState : Grammar :=
  { startSymbol := "AUGMENTED_START"
    rules := [("A", [["y"]]), ("AUGMENTED_START", [["T"]]), ("T", [["x"], ["A"]])]
    nonterminals := ["A", "AUGMENTED_START", "T"]
    terminals := ["ENDMARKER", "x", "y"]
    first := [("A", []), ("AUGMENTED_START", []), ("ENDMARKER", ["ENDMARKER"]), ("T", []),
      ("x", ["x"]), ("y", ["y"])]
    follow := [("A", ["ENDMARKER"]), ("AUGMENTED_START", ["ENDMARKER"]),
      ("T", ["ENDMARKER"])] }

/-- The item (T, rule 1, dot 0, ENDMARKER): `T -> . A` with lookahead
ENDMARKER. -/
def altItem : Item := ⟨"T", 1, 0, ENDMARKER⟩

/-- The item (A, rule 0, dot 0, ENDMARKER): `A -> . y` with lookahead
ENDMARKER. -/
def altInserted : Item := ⟨"A", 0, 0, ENDMARKER⟩

/-! ## The reference walk for FIRST of a sequence -/

/-- The walk of the specification over the symbols that are left: add
`first[X]` without EPSILON to the result, go on only when EPSILON is in
`first[X]`, and add EPSILON when the walk passes the last symbol. -/
def firstWordSpecWalk (first : StrMap StrSet) : List String → StrSet → StrSet
  | [], result => setInsert EPSILON result
  | x :: rest, result =>
    let result := setInsertRange (setErase EPSILON (mapGet x [] first)) result
    if setContains EPSILON (mapGet x [] first) then firstWordSpecWalk first rest result
    else result

/-- FIRST of a sequence as the specification words it: the empty set for the
empty sequence, the left-to-right nullable walk otherwise. -/
def firstWordSpec (first : StrMap StrSet) (word : List String) : StrSet :=
  match word with
  | [] => []
  | _ :: _ => firstWordSpecWalk first word []

/-! ## Predicates used in the statements -/

/-- Every member of every entry of the table satisfies `U`. -/
def TableWithin (U : String → Prop) (m : StrMap StrSet) : Prop :=
  ∀ k s, mapFind k m = some s → ∀ x ∈ s, U x

/-- What the FIRST computation may do to the FIRST table: entries under the
keys in `A` stay as they are, and members are drawn from what is there
already, or are EPSILON. -/
structure FirstEvolves (A : String → Prop) (m m' : StrMap StrSet) : Prop where
  keeps : ∀ k s, A k → mapFind k m = some s → mapFind k m' = some s
  within : ∀ U : String → Prop, U EPSILON → TableWithin U m → TableWithin U m'

/-- What one or more calls of `ComputeFirstStep` on the symbols of `l` may do
to the grammar object. -/
structure FirstPhase (l : List String) (g g' : Grammar) : Prop where
  startSymbol : g'.startSymbol = g.startSymbol
  nonterminals : g'.nonterminals = g.nonterminals
  terminals : g'.terminals = g.terminals
  follow : g'.follow = g.follow
  rules : (∀ k ∈ l, (mapFind k g.rules).isSome) → g'.rules = g.rules
  first : FirstEvolves (fun k => k ∉ l) g.first g'.first

/-- The symbol `x` occurs in some body of the production map. -/
def InBody (rules : StrMap RuleList) (x : String) : Prop :=
  ∃ p ∈ rules, ∃ rhs ∈ p.2, x ∈ rhs

/-- What the FOLLOW computation may do to the FOLLOW table: every entry stays
and keeps its members, and entries under keys outside `T` stay as they are. -/
structure FollowEvolves (T : String → Prop) (m m' : StrMap StrSet) : Prop where
  grows : ∀ k s, mapFind k m = some s → ∃ s', mapFind k m' = some s' ∧ ∀ x ∈ s, x ∈ s'
  frame : ∀ k s, ¬ T k → mapFind k m = some s → mapFind k m' = some s

/-- What one or more calls of `ComputeFollowStep` on the symbols of `l` may do
to the grammar object. -/
structure FollowPhase (l : List String) (T : String → Prop) (g g' : Grammar) : Prop where
  startSymbol : g'.startSymbol = g.startSymbol
  nonterminals : g'.nonterminals = g.nonterminals
  terminals : g'.terminals = g.terminals
  rules : (∀ k ∈ l, (mapFind k g.rules).isSome) → g'.rules = g.rules
  bodies : ∀ x, InBody g'.rules x → InBody g.rules x
  first : FirstEvolves (fun _ => True) g.first g'.first
  follow : FollowEvolves T g.follow g'.follow

/-- Every entry of the FIRST table is a subset of `terminals` united with
`{EPSILON}`. -/
def FirstWithin (g : Grammar) : Prop :=
  TableWithin (fun x => x ∈ g.terminals ∨ x = EPSILON) g.first

/-- No head and no body symbol of the production map is one of the reserved
names AUGMENTED_START and ENDMARKER. -/
def ReservedFree (rules : StrMap RuleList) : Prop :=
  ∀ p ∈ rules, (p.1 ≠ AUGMENTED_START ∧ p.1 ≠ ENDMARKER) ∧
    ∀ rhs ∈ p.2, ∀ x ∈ rhs, x ≠ AUGMENTED_START ∧ x ≠ ENDMARKER

/-- The second item list has all the length of the first, and is the first
when it is not longer: what a run of `insert` calls does to an item set. -/
def Extends (l l' : List Item) : Prop :=
  l.length ≤ l'.length ∧ (l'.length = l.length → l' = l)

/-- The second grammar object reads like the first: the same `nonterminals`,
and `rules[k]` and `first[k]` give the same value for every key (entries that
`operator[]` created are the only difference). -/
structure SameReads (g g' : Grammar) : Prop where
  nonterminals : g'.nonterminals = g.nonterminals
  rules : ∀ k, mapGet k [] g'.rules = mapGet k [] g.rules
  first : ∀ k, mapGet k [] g'.first = mapGet k [] g.first

/-- The FOLLOW table of `g'` has something that the one of `g` has not, at a
nonterminal: a new entry or a new member of an entry. -/
def FollowNew (g g' : Grammar) : Prop :=
  ∃ k ∈ g.nonterminals,
    (mapFind k g.follow = none ∧ (mapFind k g'.follow).isSome = true) ∨
      ∃ e, e ∈ mapGet k [] g'.follow ∧ e ∉ mapGet k [] g.follow

/-- How the counter `added` moves while the FOLLOW computation takes the
grammar object from `g` to `g'`: it never goes down, it goes up only when
something is new in the FOLLOW table, and the members of the FOLLOW table are
drawn from what the two tables held. -/
structure FollowCount (g g' : Grammar) (added added' : Int) : Prop where
  le : added ≤ added'
  new : added < added' → FollowNew g g'
  within : ∀ U : String → Prop, U EPSILON → TableWithin U g.first →
    TableWithin U g.follow → TableWithin U g'.follow

/-- The FOLLOW table after the lines 209-219 of `ComputeFollowStep` for the
occurrence `x` in a body of `symbol`, written out once for the proofs: `m` is
the table before (the entry of `x` is there), `firstBeta` the FIRST set of
what follows `x`, `isLast` and `eps` the two tests. -/
def followVisitTable (symbol x : String) (firstBeta : StrSet) (isLast eps : Bool)
    (m : StrMap StrSet) : StrMap StrSet :=
  let follow := if !isLast then mapSet x (setInsertRange firstBeta (mapGet x [] m)) m else m
  if isLast || eps then
    let follow := mapTouch symbol [] follow
    mapSet x (setInsertRange (mapGet symbol [] follow) (mapGet x [] follow)) follow
  else follow

/-- What the FOLLOW table holds at the key `p.1`: the entry itself when `p.2`
is `none`, the member `e` of the entry when `p.2` is `some e`. -/
def followHas (m : StrMap StrSet) (p : String × Option String) : Bool :=
  match p.2 with
  | none => (mapFind p.1 m).isSome
  | some e => decide (e ∈ mapGet p.1 [] m)

/-- The entries and members that the FOLLOW table holds, among the keys `N`
and the strings `U`: the quantity that grows with every pass of
`ComputeFollow` that reports `added != 0`. -/
def followMarks (N U : List String) (m : StrMap StrSet) : Finset (String × Option String) :=
  (N.toFinset ×ˢ (insert none (U.toFinset.image some))).filter (fun p => followHas m p = true)

/-- All the members of all the entries of a table. -/
def tableElems (m : StrMap StrSet) : List String :=
  m.flatMap (fun p => p.2)

/-- The FOLLOW conditions, as they stand before EPSILON is erased, for the
nonterminals that occur in the part `l` of a body of `A`: for `l = α B β`
with `B` a nonterminal, `ComputeFirstWord(β)` is within `follow[B]`, and
`follow[A]` is within `follow[B]` when `β` is empty or EPSILON is in
`ComputeFirstWord(β)`. -/
def FollowClosed (g : Grammar) (A : String) (l : List String) : Prop :=
  ∀ (α : List String) (B : String) (β : List String), l = α ++ B :: β → B ∈ g.nonterminals →
    (∀ e ∈ (g.ComputeFirstWord β).2, e ∈ mapGet B [] g.follow) ∧
      ((β = [] ∨ EPSILON ∈ (g.ComputeFirstWord β).2) →
        ∀ e ∈ mapGet A [] g.follow, e ∈ mapGet B [] g.follow)

/-! ## Sets: membership -/

theorem mem_setPlace (a x : String) (s : StrSet) : x ∈ setPlace a s ↔ x = a ∨ x ∈ s := by
  induction s with
  | nil => simp [setPlace]
  | cons b t ih =>
    unfold setPlace
    split
    · simp
    · simp only [List.mem_cons, ih]
      tauto

theorem mem_setInsert (a x : String) (s : StrSet) : x ∈ setInsert a s ↔ x = a ∨ x ∈ s := by
  unfold setInsert
  split
  · constructor
    · exact Or.inr
    · rintro (rfl | h)
      · assumption
      · exact h
  · exact mem_setPlace a x s

theorem mem_setInsertRange (src dst : StrSet) (x : String) :
    x ∈ setInsertRange src dst ↔ x ∈ src ∨ x ∈ dst := by
  unfold setInsertRange
  induction src generalizing dst with
  | nil => simp
  | cons b t ih =>
    simp only [List.foldl_cons, ih, mem_setInsert, List.mem_cons]
    tauto

theorem mem_setErase (a x : String) (s : StrSet) : x ∈ setErase a s ↔ x ∈ s ∧ x ≠ a := by
  simp [setErase]

theorem setContains_iff (a : String) (s : StrSet) : setContains a s = true ↔ a ∈ s := by
  simp [setContains]

/-! ## Maps: lookup after an update -/

theorem mapFind_mapPlace_ne {V : Type} (k k' : String) (v : V) (m : StrMap V) (h : k' ≠ k) :
    mapFind k' (mapPlace k v m) = mapFind k' m := by
  induction m with
  | nil => simp [mapPlace, mapFind, Ne.symm h]
  | cons p t ih =>
    unfold mapPlace
    split
    · simp [mapFind, Ne.symm h]
    · simp [mapFind, ih]

theorem mapFind_mapPlace_self {V : Type} (k : String) (v : V) (m : StrMap V)
    (h : mapFind k m = none) : mapFind k (mapPlace k v m) = some v := by
  induction m with
  | nil => simp [mapPlace, mapFind]
  | cons p t ih =>
    unfold mapFind at h
    split at h
    · cases h
    · rename_i hp
      unfold mapPlace
      split
      · simp [mapFind]
      · simp [mapFind, hp, ih h]

theorem mapFind_mapReplace_ne {V : Type} (k k' : String) (v : V) (m : StrMap V) (h : k' ≠ k) :
    mapFind k' (mapReplace k v m) = mapFind k' m := by
  induction m with
  | nil => simp [mapReplace]
  | cons p t ih =>
    unfold mapReplace
    split
    · rename_i hp
      have : p.1 ≠ k' := by rw [hp]; exact Ne.symm h
      simp [mapFind, this]
    · simp [mapFind, ih]

theorem mapFind_mapReplace_self {V : Type} (k : String) (v : V) (m : StrMap V)
    (h : (mapFind k m).isSome) : mapFind k (mapReplace k v m) = some v := by
  induction m with
  | nil => simp [mapFind] at h
  | cons p t ih =>
    unfold mapFind at h
    unfold mapReplace
    split at h
    · rename_i hp
      simp [mapFind, hp]
    · rename_i hp
      simp [mapFind, hp, ih h]

theorem mapFind_mapSet {V : Type} (k k' : String) (v : V) (m : StrMap V) :
    mapFind k' (mapSet k v m) = if k' = k then some v else mapFind k' m := by
  unfold mapSet
  by_cases hk : k' = k
  · subst hk
    simp only [if_true]
    split
    · rename_i h
      exact mapFind_mapReplace_self _ v m h
    · rename_i h
      exact mapFind_mapPlace_self _ v m (by simpa using h)
  · simp only [hk, if_false]
    split
    · exact mapFind_mapReplace_ne k k' v m hk
    · exact mapFind_mapPlace_ne k k' v m hk

theorem mapFind_mapTouch {V : Type} (k k' : String) (d : V) (m : StrMap V) :
    mapFind k' (mapTouch k d m) = if k' = k then some (mapGet k d m) else mapFind k' m := by
  unfold mapTouch mapGet
  by_cases hk : k' = k
  · subst hk
    simp only [if_true]
    split
    · rename_i h
      obtain ⟨w, hw⟩ := Option.isSome_iff_exists.mp h
      simp [hw]
    · rename_i h
      have hn : mapFind k' m = none := by simpa using h
      rw [mapFind_mapPlace_self _ d m hn, hn]
      rfl
  · simp only [hk, if_false]
    split
    · rfl
    · exact mapFind_mapPlace_ne k k' d m hk

theorem mapTouch_of_isSome {V : Type} (k : String) (d : V) (m : StrMap V)
    (h : (mapFind k m).isSome) : mapTouch k d m = m := by
  simp [mapTouch, h]

theorem mapFind_mapTouch_of_some {V : Type} (k k' : String) (d v : V) (m : StrMap V)
    (h : mapFind k' m = some v) : mapFind k' (mapTouch k d m) = some v := by
  rw [mapFind_mapTouch]
  split
  · rename_i hk
    subst hk
    simp [mapGet, h]
  · exact h

theorem mapGet_mapTouch {V : Type} (k k' : String) (d : V) (m : StrMap V) :
    mapGet k' d (mapTouch k d m) = mapGet k' d m := by
  unfold mapGet
  rw [mapFind_mapTouch]
  split
  · rename_i hk
    subst hk
    simp [mapGet]
  · rfl

theorem mapFind_mem {V : Type} (k : String) (v : V) (m : StrMap V)
    (h : mapFind k m = some v) : (k, v) ∈ m := by
  induction m with
  | nil => simp [mapFind] at h
  | cons p t ih =>
    unfold mapFind at h
    split at h
    · rename_i hp
      cases h
      subst hp
      simp
    · exact List.mem_cons_of_mem _ (ih h)

theorem mapFind_isSome_of_mem {V : Type} (k : String) (v : V) (m : StrMap V)
    (h : (k, v) ∈ m) : (mapFind k m).isSome := by
  induction m with
  | nil => simp at h
  | cons p t ih =>
    unfold mapFind
    split
    · rfl
    · rename_i hp
      rcases List.mem_cons.mp h with h | h
      · subst h
        exact absurd rfl hp
      · exact ih h


/-! ## Relations between tables -/

theorem tableWithin_mapGet (U : String → Prop) (m : StrMap StrSet) (k : String)
    (h : TableWithin U m) : ∀ x ∈ mapGet k [] m, U x := by
  intro x hx
  unfold mapGet at hx
  cases hf : mapFind k m with
  | none => simp [hf] at hx
  | some s =>
    rw [hf] at hx
    exact h k s hf x hx

theorem tableWithin_mapTouch (U : String → Prop) (m : StrMap StrSet) (k : String)
    (h : TableWithin U m) : TableWithin U (mapTouch k [] m) := by
  intro k' s hs x hx
  rw [mapFind_mapTouch] at hs
  split at hs
  · cases hs
    exact tableWithin_mapGet U m k h x hx
  · exact h k' s hs x hx

theorem tableWithin_mapSet (U : String → Prop) (m : StrMap StrSet) (k : String) (v : StrSet)
    (h : TableWithin U m) (hv : ∀ x ∈ v, U x) : TableWithin U (mapSet k v m) := by
  intro k' s hs x hx
  rw [mapFind_mapSet] at hs
  split at hs
  · cases hs
    exact hv x hx
  · exact h k' s hs x hx

theorem FirstEvolves.firstRefl (A : String → Prop) (m : StrMap StrSet) : FirstEvolves A m m :=
  ⟨fun _ _ _ h => h, fun _ _ h => h⟩

theorem FirstEvolves.firstTrans {A : String → Prop} {m₁ m₂ m₃ : StrMap StrSet}
    (h₁ : FirstEvolves A m₁ m₂) (h₂ : FirstEvolves A m₂ m₃) : FirstEvolves A m₁ m₃ :=
  ⟨fun k s hk h => h₂.keeps k s hk (h₁.keeps k s hk h),
    fun U hU h => h₂.within U hU (h₁.within U hU h)⟩

theorem FirstEvolves.firstWeaken {A B : String → Prop} {m₁ m₂ : StrMap StrSet}
    (h : FirstEvolves A m₁ m₂) (hBA : ∀ k, B k → A k) : FirstEvolves B m₁ m₂ :=
  ⟨fun k s hk hf => h.keeps k s (hBA k hk) hf, h.within⟩

theorem FirstEvolves.firstTouch (A : String → Prop) (m : StrMap StrSet) (k : String) :
    FirstEvolves A m (mapTouch k [] m) :=
  ⟨fun k' s _ h => mapFind_mapTouch_of_some k k' [] s m h,
    fun U _ h => tableWithin_mapTouch U m k h⟩

theorem FirstEvolves.firstSet (m : StrMap StrSet) (k : String) (v : StrSet)
    (hv : ∀ U : String → Prop, U EPSILON → TableWithin U m → ∀ x ∈ v, U x) :
    FirstEvolves (fun k' => k' ≠ k) m (mapSet k v m) := by
  refine ⟨?_, fun U hU h => tableWithin_mapSet U m k v h (hv U hU h)⟩
  intro k' s hk h
  rw [mapFind_mapSet, if_neg hk]
  exact h

theorem FirstEvolves.firstUnion (m : StrMap StrSet) (k j : String) :
    FirstEvolves (fun k' => k' ≠ k) m
      (mapSet k (setInsertRange (mapGet j [] m) (mapGet k [] m)) m) := by
  apply FirstEvolves.firstSet
  intro U _ h x hx
  rcases (mem_setInsertRange _ _ x).mp hx with hx | hx
  · exact tableWithin_mapGet U m j h x hx
  · exact tableWithin_mapGet U m k h x hx

theorem FirstEvolves.firstErase (m : StrMap StrSet) (k a : String) :
    FirstEvolves (fun k' => k' ≠ k) m (mapSet k (setErase a (mapGet k [] m)) m) := by
  apply FirstEvolves.firstSet
  intro U _ h x hx
  exact tableWithin_mapGet U m k h x ((mem_setErase a x _).mp hx).1

/-! ## The FIRST computation, step by step -/

theorem firstStepWhile_evolves (symbol : String) (rhs : RuleBody) :
    ∀ (fuel index : Nat) (current : String) (first : StrMap StrSet),
      FirstEvolves (fun k => k ≠ symbol) first
        (firstStepWhile symbol rhs fuel index current first).2.2
  | 0, _, _, first => FirstEvolves.firstRefl _ first
  | fuel + 1, index, current, first => by
    unfold firstStepWhile
    dsimp only
    split
    · exact (FirstEvolves.firstTouch _ first current).firstTrans
        ((FirstEvolves.firstTouch _ _ _).firstTrans
          ((FirstEvolves.firstUnion _ symbol _).firstTrans
            (firstStepWhile_evolves symbol rhs fuel _ _ _)))
    · exact FirstEvolves.firstTouch _ first current

theorem firstStepBody_evolves (symbol : String) (rhs : RuleBody) (first first' : StrMap StrSet)
    (h : firstStepBody symbol rhs first = some first') :
    FirstEvolves (fun k => k ≠ symbol) first first' := by
  unfold firstStepBody at h
  split at h
  · cases h
  · rename_i current rest
    dsimp only at h
    have hw := firstStepWhile_evolves symbol (current :: rest) (current :: rest).length 0 current
      (mapSet symbol (setInsertRange (mapGet current [] (mapTouch current [] first))
        (mapGet symbol [] (mapTouch current [] first))) (mapTouch current [] first))
    have h0 := (FirstEvolves.firstTouch (fun k => k ≠ symbol) first current).firstTrans
      ((FirstEvolves.firstUnion (mapTouch current [] first) symbol current).firstTrans hw)
    split at h
    · cases h
      exact h0.firstTrans (FirstEvolves.firstUnion _ symbol _)
    · cases h
      exact h0.firstTrans (FirstEvolves.firstErase _ symbol _)

theorem firstStepRules_evolves (symbol : String) :
    ∀ (rl : RuleList) (first first' : StrMap StrSet),
      firstStepRules symbol rl first = some first' →
        FirstEvolves (fun k => k ≠ symbol) first first'
  | [], first, first', h => by
    simp only [firstStepRules, Option.some.injEq] at h
    subst h
    exact FirstEvolves.firstRefl _ _
  | rhs :: rest, first, first', h => by
    unfold firstStepRules at h
    split at h
    · cases h
    · rename_i first₁ hb
      exact (firstStepBody_evolves symbol rhs first first₁ hb).firstTrans
        (firstStepRules_evolves symbol rest first₁ first' h)


theorem FirstPhase.phaseRefl (l : List String) (g : Grammar) : FirstPhase l g g :=
  ⟨rfl, rfl, rfl, rfl, fun _ => rfl, FirstEvolves.firstRefl _ _⟩

theorem FirstPhase.phaseTrans {l : List String} {g₁ g₂ g₃ : Grammar}
    (h₁ : FirstPhase l g₁ g₂) (h₂ : FirstPhase l g₂ g₃) : FirstPhase l g₁ g₃ := by
  refine ⟨h₂.startSymbol.trans h₁.startSymbol, h₂.nonterminals.trans h₁.nonterminals,
    h₂.terminals.trans h₁.terminals, h₂.follow.trans h₁.follow, ?_, h₁.first.firstTrans h₂.first⟩
  intro hk
  have e₁ := h₁.rules hk
  have e₂ := h₂.rules (by rw [e₁]; exact hk)
  rw [e₂, e₁]

theorem FirstPhase.phaseMono {l l' : List String} {g₁ g₂ : Grammar}
    (h : FirstPhase l g₁ g₂) (hl : ∀ k ∈ l, k ∈ l') : FirstPhase l' g₁ g₂ :=
  ⟨h.startSymbol, h.nonterminals, h.terminals, h.follow,
    fun hk => h.rules (fun k hkl => hk k (hl k hkl)),
    h.first.firstWeaken (fun k hk hkl => hk (hl k hkl))⟩

theorem ComputeFirstStep_phase (g g' : Grammar) (symbol : String) (n : Int)
    (h : g.ComputeFirstStep symbol = some (g', n)) : FirstPhase [symbol] g g' := by
  have hA : ∀ k : String, k ∉ [symbol] → k ≠ symbol := by
    intro k hk
    simpa using hk
  unfold Grammar.ComputeFirstStep at h
  dsimp only at h
  split at h
  · simp only [Option.some.injEq, Prod.mk.injEq] at h
    obtain ⟨hg, -⟩ := h
    subst hg
    refine ⟨rfl, rfl, rfl, rfl, ?_, ?_⟩
    · intro hk
      exact mapTouch_of_isSome symbol [] g.rules (hk symbol (by simp))
    · refine (FirstEvolves.firstSet g.first symbol _ ?_).firstWeaken hA
      intro U hU _ x hx
      split at hx
      · have : x = EPSILON := by simpa [setInsert, setPlace] using hx
        rw [this]
        exact hU
      · simp at hx
  · split at h
    · cases h
    · rename_i first' hr
      simp only [Option.some.injEq, Prod.mk.injEq] at h
      obtain ⟨hg, -⟩ := h
      subst hg
      refine ⟨rfl, rfl, rfl, rfl, ?_, ?_⟩
      · intro hk
        exact mapTouch_of_isSome symbol [] g.rules (hk symbol (by simp))
      · exact (firstStepRules_evolves symbol _ g.first first' hr).firstWeaken hA

theorem firstPass_phase :
    ∀ (l : List String) (g g' : Grammar) (added added' : Int),
      firstPass l g added = some (g', added') → FirstPhase l g g'
  | [], g, g', added, added', h => by
    simp only [firstPass, Option.some.injEq, Prod.mk.injEq] at h
    rw [← h.1]
    exact FirstPhase.phaseRefl _ _
  | nt :: rest, g, g', added, added', h => by
    unfold firstPass at h
    split at h
    · cases h
    · rename_i g₁ n hs
      exact ((ComputeFirstStep_phase g g₁ nt n hs).phaseMono (by simp)).phaseTrans
        ((firstPass_phase rest g₁ g' _ added' h).phaseMono (by simp +contextual))

theorem firstLoop_phase :
    ∀ (fuel : Nat) (g g' : Grammar),
      firstLoop fuel g = some g' → FirstPhase g.nonterminals g g'
  | 0, g, g', h => by simp [firstLoop] at h
  | fuel + 1, g, g', h => by
    unfold firstLoop at h
    split at h
    · cases h
    · rename_i g₁ added hp
      have h₁ := firstPass_phase g.nonterminals g g₁ 0 added hp
      split at h
      · have h₂ := firstLoop_phase fuel g₁ g' h
        rw [h₁.nonterminals] at h₂
        exact h₁.phaseTrans h₂
      · simp only [Option.some.injEq] at h
        rw [← h]
        exact h₁


theorem mapFind_seedFirst (ts : List String) :
    ∀ (m : StrMap StrSet) (k : String),
      mapFind k (seedFirst ts m) = if k ∈ ts then some [k] else mapFind k m := by
  induction ts with
  | nil => intro m k; simp [seedFirst]
  | cons t rest ih =>
    intro m k
    have hstep : seedFirst (t :: rest) m = seedFirst rest (mapSet t (setInsert t []) m) := rfl
    rw [hstep, ih, mapFind_mapSet]
    by_cases hr : k ∈ rest
    · simp [hr]
    · by_cases hk : k = t
      · subst hk
        simp [hr, setInsert, setPlace]
      · simp [hr, hk]

theorem ComputeFirst_phase (fuel : Nat) (g g' : Grammar) (h : g.ComputeFirst fuel = some g') :
    FirstPhase g.nonterminals { g with first := seedFirst g.terminals g.first } g' :=
  firstLoop_phase fuel _ g' h

/-! ## The FOLLOW computation, step by step -/

theorem firstWordWhile_evolves (word : List String) :
    ∀ (fuel index : Nat) (current : String) (first : StrMap StrSet) (wordFirst : StrSet),
      FirstEvolves (fun _ => True) first
        (firstWordWhile word fuel index current first wordFirst).2.2.1
  | 0, _, _, first, _ => FirstEvolves.firstRefl _ first
  | fuel + 1, index, current, first, wordFirst => by
    unfold firstWordWhile
    dsimp only
    split
    · exact (FirstEvolves.firstTouch _ first current).firstTrans
        ((FirstEvolves.firstTouch _ _ _).firstTrans (firstWordWhile_evolves word fuel _ _ _ _))
    · exact FirstEvolves.firstTouch _ first current

theorem ComputeFirstWord_fst (g : Grammar) (word : List String) :
    ∃ first', (g.ComputeFirstWord word).1 = { g with first := first' } ∧
      FirstEvolves (fun _ => True) g.first first' := by
  unfold Grammar.ComputeFirstWord
  split
  · exact ⟨g.first, rfl, FirstEvolves.firstRefl _ _⟩
  · rename_i current rest
    dsimp only
    have hw := firstWordWhile_evolves (current :: rest) (current :: rest).length 0 current
      (mapTouch current [] g.first)
      (setInsertRange (mapGet current [] (mapTouch current [] g.first)) [])
    have h0 := (FirstEvolves.firstTouch (fun _ => True) g.first current).firstTrans hw
    split
    · exact ⟨_, rfl, h0⟩
    · exact ⟨_, rfl, h0⟩

theorem FollowEvolves.followRefl (T : String → Prop) (m : StrMap StrSet) : FollowEvolves T m m :=
  ⟨fun _ s h => ⟨s, h, fun _ hx => hx⟩, fun _ _ _ h => h⟩

theorem FollowEvolves.followTrans {T : String → Prop} {m₁ m₂ m₃ : StrMap StrSet}
    (h₁ : FollowEvolves T m₁ m₂) (h₂ : FollowEvolves T m₂ m₃) : FollowEvolves T m₁ m₃ := by
  refine ⟨?_, fun k s hk h => h₂.frame k s hk (h₁.frame k s hk h)⟩
  intro k s h
  obtain ⟨s₂, hs₂, hsub₂⟩ := h₁.grows k s h
  obtain ⟨s₃, hs₃, hsub₃⟩ := h₂.grows k s₂ hs₂
  exact ⟨s₃, hs₃, fun x hx => hsub₃ x (hsub₂ x hx)⟩

theorem FollowEvolves.followWeaken {T T' : String → Prop} {m₁ m₂ : StrMap StrSet}
    (h : FollowEvolves T m₁ m₂) (hT : ∀ k, T k → T' k) : FollowEvolves T' m₁ m₂ :=
  ⟨h.grows, fun k s hk hf => h.frame k s (fun ht => hk (hT k ht)) hf⟩

theorem FollowEvolves.followTouch (T : String → Prop) (m : StrMap StrSet) (k : String) :
    FollowEvolves T m (mapTouch k [] m) :=
  ⟨fun k' s h => ⟨s, mapFind_mapTouch_of_some k k' [] s m h, fun _ hx => hx⟩,
    fun k' s _ h => mapFind_mapTouch_of_some k k' [] s m h⟩

theorem FollowEvolves.followUnion (T : String → Prop) (m : StrMap StrSet) (x : String)
    (src : StrSet) (hx : T x) :
    FollowEvolves T m (mapSet x (setInsertRange src (mapGet x [] m)) m) := by
  constructor
  · intro k s h
    rw [mapFind_mapSet]
    split
    · rename_i hk
      subst hk
      refine ⟨_, rfl, ?_⟩
      intro y hy
      apply (mem_setInsertRange _ _ y).mpr
      right
      simpa [mapGet, h] using hy
    · exact ⟨s, h, fun _ hy => hy⟩
  · intro k s hk h
    have : k ≠ x := by
      rintro rfl
      exact hk hx
    rw [mapFind_mapSet, if_neg this]
    exact h


theorem FollowPhase.stepsRefl (l : List String) (T : String → Prop) (g : Grammar) :
    FollowPhase l T g g :=
  ⟨rfl, rfl, rfl, fun _ => rfl, fun _ h => h, FirstEvolves.firstRefl _ _, FollowEvolves.followRefl _ _⟩

theorem FollowPhase.stepsTrans {l : List String} {T : String → Prop} {g₁ g₂ g₃ : Grammar}
    (h₁ : FollowPhase l T g₁ g₂) (h₂ : FollowPhase l T g₂ g₃) : FollowPhase l T g₁ g₃ := by
  refine ⟨h₂.startSymbol.trans h₁.startSymbol, h₂.nonterminals.trans h₁.nonterminals,
    h₂.terminals.trans h₁.terminals, ?_, fun x hx => h₁.bodies x (h₂.bodies x hx),
    h₁.first.firstTrans h₂.first, h₁.follow.followTrans h₂.follow⟩
  intro hk
  have e₁ := h₁.rules hk
  have e₂ := h₂.rules (by rw [e₁]; exact hk)
  rw [e₂, e₁]

theorem FollowPhase.stepsMono {l l' : List String} {T T' : String → Prop} {g₁ g₂ : Grammar}
    (h : FollowPhase l T g₁ g₂) (hl : ∀ k ∈ l, k ∈ l') (hT : ∀ k, T k → T' k) :
    FollowPhase l' T' g₁ g₂ :=
  ⟨h.startSymbol, h.nonterminals, h.terminals,
    fun hk => h.rules (fun k hkl => hk k (hl k hkl)), h.bodies, h.first,
    h.follow.followWeaken hT⟩

theorem followStepBody_phase (symbol : String) :
    ∀ (l : List String) (g : Grammar) (added : Int),
      FollowPhase [] (fun k => k ∈ l) g (followStepBody symbol l g added).1
  | [], g, added => FollowPhase.stepsRefl _ _ g
  | x :: beta, g, added => by
    unfold followStepBody
    split
    · dsimp only
      obtain ⟨first', he, hf⟩ :=
        ComputeFirstWord_fst { g with follow := mapTouch x [] g.follow } beta
      generalize Grammar.ComputeFirstWord { g with follow := mapTouch x [] g.follow } beta = r
        at he ⊢
      obtain ⟨g₁, firstBeta⟩ := r
      dsimp only at he ⊢
      subst he
      dsimp only
      refine FollowPhase.stepsTrans ?_
        ((followStepBody_phase symbol beta _ _).stepsMono (fun _ hk => hk)
          (fun k hk => List.mem_cons_of_mem x hk))
      refine ⟨rfl, rfl, rfl, fun _ => rfl, fun _ h => h, hf, ?_⟩
      dsimp only
      have hT : (fun k => k ∈ x :: beta) x := by simp
      have h₀ := FollowEvolves.followTouch (fun k => k ∈ x :: beta) g.follow x
      have h₁ : FollowEvolves (fun k => k ∈ x :: beta) g.follow
          (if (!beta.isEmpty) = true then
            mapSet x (setInsertRange firstBeta (mapGet x [] (mapTouch x [] g.follow)))
              (mapTouch x [] g.follow)
          else mapTouch x [] g.follow) := by
        split
        · exact h₀.followTrans (FollowEvolves.followUnion _ _ x firstBeta hT)
        · exact h₀
      split
      · exact h₁.followTrans ((FollowEvolves.followTouch _ _ symbol).followTrans
          (FollowEvolves.followUnion _ _ x _ hT))
      · exact h₁
    · exact (followStepBody_phase symbol beta g added).stepsMono (fun _ hk => hk)
        (fun k hk => List.mem_cons_of_mem x hk)


theorem followStepRules_phase (symbol : String) :
    ∀ (rl : RuleList) (g : Grammar) (added : Int),
      FollowPhase [] (fun k => ∃ rhs ∈ rl, k ∈ rhs) g (followStepRules symbol rl g added).1
  | [], g, added => FollowPhase.stepsRefl _ _ g
  | rhs :: rest, g, added => by
    unfold followStepRules
    have h₁ := followStepBody_phase symbol rhs g added
    generalize followStepBody symbol rhs g added = r at h₁ ⊢
    obtain ⟨g₁, added₁⟩ := r
    dsimp only at h₁ ⊢
    exact (h₁.stepsMono (fun _ hk => hk) (fun k hk => ⟨rhs, by simp, hk⟩)).stepsTrans
      ((followStepRules_phase symbol rest g₁ added₁).stepsMono (fun _ hk => hk)
        (fun k ⟨b, hb, hk⟩ => ⟨b, List.mem_cons_of_mem rhs hb, hk⟩))

theorem mem_mapPlace {V : Type} (k : String) (v : V) (m : StrMap V) (p : String × V) :
    p ∈ mapPlace k v m ↔ p = (k, v) ∨ p ∈ m := by
  induction m with
  | nil => simp [mapPlace]
  | cons q t ih =>
    unfold mapPlace
    split
    · simp
    · simp only [List.mem_cons, ih]
      tauto

theorem inBody_mapTouch (rules : StrMap RuleList) (symbol x : String)
    (h : InBody (mapTouch symbol [] rules) x) : InBody rules x := by
  unfold mapTouch at h
  split at h
  · exact h
  · obtain ⟨p, hp, rhs, hrhs, hx⟩ := h
    rcases (mem_mapPlace symbol [] rules p).mp hp with hp | hp
    · subst hp
      simp at hrhs
    · exact ⟨p, hp, rhs, hrhs, hx⟩

theorem inBody_of_mapGet (rules : StrMap RuleList) (symbol x : String) (rhs : RuleBody)
    (hrhs : rhs ∈ mapGet symbol [] rules) (hx : x ∈ rhs) : InBody rules x := by
  unfold mapGet at hrhs
  cases hf : mapFind symbol rules with
  | none => simp [hf] at hrhs
  | some rl =>
    rw [hf] at hrhs
    exact ⟨(symbol, rl), mapFind_mem symbol rl rules hf, rhs, hrhs, hx⟩

theorem FollowEvolves.followFresh (T : String → Prop) (m : StrMap StrSet) (x : String)
    (v : StrSet) (hx : mapFind x m = none) : FollowEvolves T m (mapSet x v m) := by
  have key : ∀ k s, mapFind k m = some s → mapFind k (mapSet x v m) = some s := by
    intro k s h
    have : k ≠ x := by
      rintro rfl
      rw [hx] at h
      cases h
    rw [mapFind_mapSet, if_neg this]
    exact h
  exact ⟨fun k s h => ⟨s, key k s h, fun _ hy => hy⟩, fun k s _ h => key k s h⟩

theorem ComputeFollowStep_phase (g : Grammar) (symbol : String) :
    FollowPhase [symbol] (InBody g.rules) g (g.ComputeFollowStep symbol).1 := by
  have hrules : (∀ k ∈ [symbol], (mapFind k g.rules).isSome) →
      mapTouch symbol [] g.rules = g.rules :=
    fun hk => mapTouch_of_isSome symbol [] g.rules (hk symbol (by simp))
  unfold Grammar.ComputeFollowStep
  dsimp only
  split
  · rename_i hn
    refine ⟨rfl, rfl, rfl, hrules, fun x hx => inBody_mapTouch g.rules symbol x hx,
      FirstEvolves.firstRefl _ _, ?_⟩
    exact FollowEvolves.followFresh _ g.follow symbol [] (by simpa using hn)
  · have h₀ : FollowPhase [symbol] (InBody g.rules) g
        { g with rules := mapTouch symbol [] g.rules } :=
      ⟨rfl, rfl, rfl, hrules, fun x hx => inBody_mapTouch g.rules symbol x hx,
        FirstEvolves.firstRefl _ _, FollowEvolves.followRefl _ _⟩
    refine h₀.stepsTrans ((followStepRules_phase symbol _ _ 0).stepsMono (by simp) ?_)
    rintro k ⟨rhs, hrhs, hk⟩
    rw [mapGet_mapTouch] at hrhs
    exact inBody_mapTouch g.rules symbol k (by
      have := inBody_of_mapGet g.rules symbol k rhs hrhs hk
      unfold mapTouch
      split
      · exact this
      · obtain ⟨p, hp, b, hb, hx⟩ := this
        exact ⟨p, (mem_mapPlace symbol [] g.rules p).mpr (Or.inr hp), b, hb, hx⟩)

theorem followPass_phase :
    ∀ (l : List String) (g : Grammar) (added : Int),
      FollowPhase l (InBody g.rules) g (followPass l g added).1
  | [], g, added => FollowPhase.stepsRefl _ _ g
  | nt :: rest, g, added => by
    unfold followPass
    have h₁ := ComputeFollowStep_phase g nt
    generalize g.ComputeFollowStep nt = r at h₁ ⊢
    obtain ⟨g₁, n⟩ := r
    dsimp only at h₁ ⊢
    exact (h₁.stepsMono (by simp) (fun _ hk => hk)).stepsTrans
      ((followPass_phase rest g₁ (added + n)).stepsMono (by simp +contextual) h₁.bodies)

theorem followLoop_phase :
    ∀ (fuel : Nat) (g g' : Grammar),
      followLoop fuel g = some g' → FollowPhase g.nonterminals (InBody g.rules) g g'
  | 0, g, g', h => by simp [followLoop] at h
  | fuel + 1, g, g', h => by
    unfold followLoop at h
    have h₁ := followPass_phase g.nonterminals g 0
    generalize followPass g.nonterminals g 0 = r at h h₁
    obtain ⟨g₁, added⟩ := r
    dsimp only at h h₁
    split at h
    · have h₂ := followLoop_phase fuel g₁ g' h
      rw [h₁.nonterminals] at h₂
      exact h₁.stepsTrans (h₂.stepsMono (fun _ hk => hk) h₁.bodies)
    · simp only [Option.some.injEq] at h
      rw [← h]
      exact h₁


theorem mapFind_eraseEpsilons (k : String) (m : StrMap StrSet) :
    mapFind k (eraseEpsilons m) = (mapFind k m).map (setErase EPSILON) := by
  induction m with
  | nil => rfl
  | cons p t ih =>
    have hstep : eraseEpsilons (p :: t) = (p.1, setErase EPSILON p.2) :: eraseEpsilons t := rfl
    rw [hstep]
    unfold mapFind
    dsimp only
    split
    · rfl
    · exact ih

theorem ComputeFollow_eq (fuel : Nat) (g g' : Grammar) (h : g.ComputeFollow fuel = some g') :
    ∃ g₁, followLoop fuel
        { g with follow := mapSet g.startSymbol (setInsert ENDMARKER []) g.follow } = some g₁ ∧
      g' = { g₁ with follow := eraseEpsilons g₁.follow } := by
  unfold Grammar.ComputeFollow at h
  split at h
  · cases h
  · rename_i g₁ hl
    simp only [Option.some.injEq] at h
    exact ⟨g₁, hl, h.symm⟩

/-! ## The bound on the rounds of the inner loops is never the reason to stop -/

theorem firstStepWhile_fuel (symbol : String) (rhs : RuleBody) :
    ∀ (fuel k index : Nat) (current : String) (first : StrMap StrSet),
      rhs.length - 1 - index < fuel →
        firstStepWhile symbol rhs (fuel + k) index current first =
          firstStepWhile symbol rhs fuel index current first
  | 0, _, _, _, _, h => by omega
  | fuel + 1, k, index, current, first, h => by
    have e : fuel + 1 + k = (fuel + k) + 1 := by omega
    rw [e]
    unfold firstStepWhile
    dsimp only
    split
    · rename_i hc
      have hi : index < rhs.length - 1 := by
        simp only [Bool.and_eq_true, decide_eq_true_eq] at hc
        exact hc.2
      exact firstStepWhile_fuel symbol rhs fuel k (index + 1) _ _ (by omega)
    · rfl

theorem firstWordWhile_fuel (word : List String) :
    ∀ (fuel k index : Nat) (current : String) (first : StrMap StrSet) (wordFirst : StrSet),
      word.length - 1 - index < fuel →
        firstWordWhile word (fuel + k) index current first wordFirst =
          firstWordWhile word fuel index current first wordFirst
  | 0, _, _, _, _, _, h => by omega
  | fuel + 1, k, index, current, first, wordFirst, h => by
    have e : fuel + 1 + k = (fuel + k) + 1 := by omega
    rw [e]
    unfold firstWordWhile
    dsimp only
    split
    · rename_i hc
      have hi : index < word.length - 1 := by
        simp only [Bool.and_eq_true, decide_eq_true_eq] at hc
        exact hc.2
      exact firstWordWhile_fuel word fuel k (index + 1) _ _ _ (by omega)
    · rfl

/-! ## More passes than needed change nothing -/

theorem firstLoop_mono :
    ∀ (n k : Nat) (g g' : Grammar), firstLoop n g = some g' → firstLoop (n + k) g = some g'
  | 0, _, g, g', h => by simp [firstLoop] at h
  | n + 1, k, g, g', h => by
    have e : n + 1 + k = (n + k) + 1 := by omega
    rw [e]
    unfold firstLoop at h ⊢
    split at h
    · cases h
    · rename_i g₁ added hp
      split at h
      · rename_i ha
        rw [if_pos ha]
        exact firstLoop_mono n k g₁ g' h
      · rename_i ha
        rw [if_neg ha]
        exact h

theorem followLoop_mono :
    ∀ (n k : Nat) (g g' : Grammar), followLoop n g = some g' → followLoop (n + k) g = some g'
  | 0, _, g, g', h => by simp [followLoop] at h
  | n + 1, k, g, g', h => by
    have e : n + 1 + k = (n + k) + 1 := by omega
    rw [e]
    unfold followLoop at h ⊢
    generalize followPass g.nonterminals g 0 = r at h ⊢
    obtain ⟨g₁, added⟩ := r
    dsimp only at h ⊢
    split at h
    · rename_i ha
      rw [if_pos ha]
      exact followLoop_mono n k g₁ g' h
    · rename_i ha
      rw [if_neg ha]
      exact h

theorem construct_mono (n k : Nat) (start : String) (rules : StrMap RuleList) (aug : Bool)
    (g : Grammar) (h : Grammar.construct n start rules aug = some g) :
    Grammar.construct (n + k) start rules aug = some g := by
  unfold Grammar.construct at h ⊢
  split at h
  · cases h
  · rename_i g₁ h₁
    have h₁' : (Grammar.init start rules aug).ComputeFirst (n + k) = some g₁ :=
      firstLoop_mono n k _ g₁ h₁
    rw [h₁']
    dsimp only
    obtain ⟨g₂, hl, hg⟩ := ComputeFollow_eq n g₁ g h
    unfold Grammar.ComputeFollow
    rw [followLoop_mono n k _ g₂ hl]
    dsimp only
    rw [hg]


/-! ## The scenarios -/

/-- C1, the code on the scenario's input: for the grammar `E -> E + T | T`,
`T -> T * F | F`, `F -> ( E ) | id` with start symbol `E`, built without
augmentation, the constructor returns, with any bound of at least 4 passes, a
grammar whose FIRST table has `first[E] = first[T] = first[F] = {}`, not
`{ "(", "id" }`. -/
theorem c1_expr_first_is_empty :
    ∀ k, ∃ g, Grammar.construct (4 + k) "E" exprRules false = some g ∧
      mapFind "E" g.first = some [] ∧ mapFind "T" g.first = some [] ∧
      mapFind "F" g.first = some [] := by
  intro k
  have hs : (Grammar.construct 4 "E" exprRules false).isSome = true := by rfl
  refine ⟨(Grammar.construct 4 "E" exprRules false).get hs,
    construct_mono 4 k _ _ _ _ (Option.some_get hs).symm, ?_, ?_, ?_⟩ <;> rfl

/-- C2: for the grammar `E -> E + T | T`, `T -> T * F | F`, `F -> ( E ) | id`
with start symbol `E`, built without augmentation, the constructor returns,
with any bound of at least 4 passes, a grammar whose FOLLOW table has
`follow[E] = { ), +, ENDMARKER }` and
`follow[T] = follow[F] = { ), *, +, ENDMARKER }`. -/
theorem c2_expr_follow :
    ∀ k, ∃ g, Grammar.construct (4 + k) "E" exprRules false = some g ∧
      mapFind "E" g.follow = some [")", "+", ENDMARKER] ∧
      mapFind "T" g.follow = some [")", "*", "+", ENDMARKER] ∧
      mapFind "F" g.follow = some [")", "*", "+", ENDMARKER] := by
  intro k
  have hs : (Grammar.construct 4 "E" exprRules false).isSome = true := by rfl
  refine ⟨(Grammar.construct 4 "E" exprRules false).get hs,
    construct_mono 4 k _ _ _ _ (Option.some_get hs).symm, ?_, ?_, ?_⟩ <;> rfl

/-- C3, the code on the scenario's input: for the grammar `S -> A B c`,
`A -> a | EPSILON`, `B -> b | EPSILON` with start symbol `S`, built without
augmentation, the constructor returns, with any bound of at least 3 passes, a
grammar with `first[A] = {EPSILON, a}`, `first[B] = {EPSILON, b}` and
`first[S] = {EPSILON, a, b}`: EPSILON is in `first[S]` and `c` is not. -/
theorem c3_nullable_first :
    ∀ k, ∃ g, Grammar.construct (3 + k) "S" nullableRules false = some g ∧
      mapFind "A" g.first = some [EPSILON, "a"] ∧
      mapFind "B" g.first = some [EPSILON, "b"] ∧
      mapFind "S" g.first = some [EPSILON, "a", "b"] := by
  intro k
  have hs : (Grammar.construct 3 "S" nullableRules false).isSome = true := by rfl
  refine ⟨(Grammar.construct 3 "S" nullableRules false).get hs,
    construct_mono 3 k _ _ _ _ (Option.some_get hs).symm, ?_, ?_, ?_⟩ <;> rfl

/-- C4, the code on the scenario's input: for the grammar `S -> A B c`,
`A -> a | EPSILON`, `B -> b | EPSILON` with start symbol `S`, built without
augmentation, the constructor returns, with any bound of at least 3 passes, a
grammar with `follow[A] = {ENDMARKER, b}`, not `{b, c}`, and
`follow[B] = {c}`. -/
theorem c4_nullable_follow :
    ∀ k, ∃ g, Grammar.construct (3 + k) "S" nullableRules false = some g ∧
      mapFind "A" g.follow = some [ENDMARKER, "b"] ∧
      mapFind "B" g.follow = some ["c"] := by
  intro k
  have hs : (Grammar.construct 3 "S" nullableRules false).isSome = true := by rfl
  refine ⟨(Grammar.construct 3 "S" nullableRules false).get hs,
    construct_mono 3 k _ _ _ _ (Option.some_get hs).symm, ?_, ?_⟩ <;> rfl

/-- C9, the code against the reference walk: on the FIRST table that the
constructor computes for `S -> A B c`, `A -> a | EPSILON`, `B -> b | EPSILON`,
`ComputeFirstWord` of the sequence `A B c` returns `{EPSILON, a, b}` while the
left-to-right nullable walk of the specification gives `{a, b, c}`. -/
theorem c9_firstWord_differs_from_walk :
    ∀ k, ∃ g, Grammar.construct (3 + k) "S" nullableRules false = some g ∧
      (g.ComputeFirstWord ["A", "B", "c"]).2 = [EPSILON, "a", "b"] ∧
      firstWordSpec g.first ["A", "B", "c"] = ["a", "b", "c"] := by
  intro k
  have hs : (Grammar.construct 3 "S" nullableRules false).isSome = true := by rfl
  refine ⟨(Grammar.construct 3 "S" nullableRules false).get hs,
    construct_mono 3 k _ _ _ _ (Option.some_get hs).symm, ?_, ?_⟩ <;> rfl

/-- C10, the code on a failing input: for the grammar `A -> EPSILON | a`,
whose nonterminal `A` has the body EPSILON as its first alternative, the
constructor returns, with any bound of at least 2 passes, a grammar with
`first[A] = {a}`: EPSILON is not a member. -/
theorem c10_epsilon_alternative_lost :
    ∀ k, ∃ g, Grammar.construct (2 + k) "A" epsilonFirstRules false = some g ∧
      mapFind "A" g.rules = some [[EPSILON], ["a"]] ∧
      mapFind "A" g.first = some ["a"] := by
  intro k
  have hs : (Grammar.construct 2 "A" epsilonFirstRules false).isSome = true := by rfl
  refine ⟨(Grammar.construct 2 "A" epsilonFirstRules false).get hs,
    construct_mono 2 k _ _ _ _ (Option.some_get hs).symm, ?_, ?_⟩ <;> rfl

/-! ## FOLLOW never holds EPSILON and holds ENDMARKER at the start symbol -/

/-- C8: for every grammar object (every FIRST table, every production map),
when `ComputeFollow` returns, EPSILON is in no entry of the FOLLOW table, and
the entry of the start symbol is there and holds ENDMARKER. -/
theorem c8_follow_epsilon_free (fuel : Nat) (g g' : Grammar)
    (h : g.ComputeFollow fuel = some g') :
    (∀ A s, mapFind A g'.follow = some s → EPSILON ∉ s) ∧
      ∃ s, mapFind g'.startSymbol g'.follow = some s ∧ ENDMARKER ∈ s := by
  obtain ⟨g₁, hl, hg⟩ := ComputeFollow_eq fuel g g' h
  subst hg
  constructor
  · intro A s hs he
    dsimp only at hs
    rw [mapFind_eraseEpsilons] at hs
    cases hf : mapFind A g₁.follow with
    | none => simp [hf] at hs
    | some s₀ =>
      rw [hf] at hs
      simp only [Option.map_some', Option.some.injEq] at hs
      rw [← hs] at he
      exact ((mem_setErase EPSILON EPSILON s₀).mp he).2 rfl
  · have hp := followLoop_phase fuel _ g₁ hl
    have hstart : g₁.startSymbol = g.startSymbol := hp.startSymbol
    obtain ⟨s', hs', hsub⟩ := hp.follow.grows g.startSymbol (setInsert ENDMARKER [])
      (by dsimp only; rw [mapFind_mapSet, if_pos rfl])
    refine ⟨setErase EPSILON s', ?_, ?_⟩
    · dsimp only
      rw [mapFind_eraseEpsilons, hstart, hs']
      rfl
    · apply (mem_setErase EPSILON ENDMARKER s').mpr
      refine ⟨hsub ENDMARKER (by simp [setInsert, setPlace]), ?_⟩
      decide

/-- C8 at the grammar `S -> a`, augmented, before its tables are computed:
`ComputeFollow` returns within 2 passes, and the returned FOLLOW table has the
two properties. -/
theorem c8_follow_epsilon_free_witness :
    ∃ g', (Grammar.init "S" singleRules true).ComputeFollow 2 = some g' ∧
      ((∀ A s, mapFind A g'.follow = some s → EPSILON ∉ s) ∧
        ∃ s, mapFind g'.startSymbol g'.follow = some s ∧ ENDMARKER ∈ s) :=
  ⟨_, rfl, c8_follow_epsilon_free 2 (Grammar.init "S" singleRules true) _ rfl⟩


/-! ## What the constructor sets up -/

theorem mem_foldl_setInsertRange (rl : RuleList) :
    ∀ (acc : StrSet) (x : String),
      x ∈ rl.foldl (fun acc rhs => setInsertRange rhs acc) acc ↔
        x ∈ acc ∨ ∃ rhs ∈ rl, x ∈ rhs := by
  induction rl with
  | nil => intro acc x; simp
  | cons b t ih =>
    intro acc x
    simp only [List.foldl_cons, ih, mem_setInsertRange, List.mem_cons, exists_eq_or_imp]
    tauto

theorem mem_collectSymbols_fst (rules : StrMap RuleList) :
    ∀ (N S : StrSet) (x : String),
      x ∈ (collectSymbols rules (N, S)).1 ↔ x ∈ N ∨ ∃ p ∈ rules, p.1 = x := by
  induction rules with
  | nil => intro N S x; simp [collectSymbols]
  | cons q t ih =>
    intro N S x
    unfold collectSymbols
    rw [ih]
    simp only [mem_setInsert, List.mem_cons, exists_eq_or_imp]
    constructor
    · rintro ((h | h) | h)
      · exact Or.inr (Or.inl h.symm)
      · exact Or.inl h
      · exact Or.inr (Or.inr h)
    · rintro (h | h | h)
      · exact Or.inl (Or.inr h)
      · exact Or.inl (Or.inl h.symm)
      · exact Or.inr h

theorem mem_collectSymbols_snd (rules : StrMap RuleList) :
    ∀ (N S : StrSet) (x : String),
      x ∈ (collectSymbols rules (N, S)).2 ↔
        x ∈ S ∨ ∃ p ∈ rules, p.1 = x ∨ ∃ rhs ∈ p.2, x ∈ rhs := by
  induction rules with
  | nil => intro N S x; simp [collectSymbols]
  | cons q t ih =>
    intro N S x
    unfold collectSymbols
    rw [ih]
    simp only [mem_foldl_setInsertRange, mem_setInsert, List.mem_cons, exists_eq_or_imp]
    constructor
    · rintro (((h | h) | h) | h)
      · exact Or.inr (Or.inl (Or.inl h.symm))
      · exact Or.inl h
      · exact Or.inr (Or.inl (Or.inr h))
      · exact Or.inr (Or.inr h)
    · rintro (h | (h | h) | h)
      · exact Or.inl (Or.inl (Or.inr h))
      · exact Or.inl (Or.inl (Or.inl h.symm))
      · exact Or.inl (Or.inr h)
      · exact Or.inr h

theorem mem_setDifference (S N : StrSet) (x : String) :
    x ∈ setDifference S N ↔ x ∈ S ∧ x ∉ N := by
  simp [setDifference, mem_setInsertRange, setContains]

theorem init_first (start : String) (rules : StrMap RuleList) (aug : Bool) :
    (Grammar.init start rules aug).first = [] := by
  unfold Grammar.init
  cases aug <;> rfl

theorem init_follow (start : String) (rules : StrMap RuleList) (aug : Bool) :
    (Grammar.init start rules aug).follow = [] := by
  unfold Grammar.init
  cases aug <;> rfl

theorem init_rules (start : String) (rules : StrMap RuleList) (aug : Bool) :
    (Grammar.init start rules aug).rules =
      if aug then mapSet AUGMENTED_START [[start]] rules else rules := by
  unfold Grammar.init
  cases aug <;> rfl

theorem init_startSymbol (start : String) (rules : StrMap RuleList) (aug : Bool) :
    (Grammar.init start rules aug).startSymbol = if aug then AUGMENTED_START else start := by
  unfold Grammar.init
  cases aug <;> rfl

theorem mem_init_nonterminals (start : String) (rules : StrMap RuleList) (aug : Bool)
    (x : String) :
    x ∈ (Grammar.init start rules aug).nonterminals ↔
      (aug = true ∧ x = AUGMENTED_START) ∨ ∃ p ∈ rules, p.1 = x := by
  have h := mem_collectSymbols_fst rules [] [] x
  unfold Grammar.init
  cases aug
  · simpa using h
  · simp only [if_true, mem_setInsert, h]
    simp

theorem mem_init_terminals (start : String) (rules : StrMap RuleList) (aug : Bool)
    (x : String) :
    x ∈ (Grammar.init start rules aug).terminals ↔
      (aug = true ∧ x = ENDMARKER) ∨
        ((∃ p ∈ rules, p.1 = x ∨ ∃ rhs ∈ p.2, x ∈ rhs) ∧ ¬ ∃ p ∈ rules, p.1 = x) := by
  have h₁ := mem_collectSymbols_fst rules [] [] x
  have h₂ := mem_collectSymbols_snd rules [] [] x
  unfold Grammar.init
  cases aug
  · simp [mem_setDifference, h₁, h₂]
  · simp [mem_setInsert, mem_setDifference, h₁, h₂]

theorem init_disjoint (start : String) (rules : StrMap RuleList) (aug : Bool)
    (hres : ReservedFree rules) :
    ∀ t ∈ (Grammar.init start rules aug).terminals,
      t ∉ (Grammar.init start rules aug).nonterminals := by
  intro t ht hn
  rw [mem_init_terminals] at ht
  rw [mem_init_nonterminals] at hn
  rcases ht with ⟨-, rfl⟩ | ⟨hsym, hnot⟩
  · rcases hn with ⟨-, h⟩ | ⟨p, hp, h⟩
    · exact absurd h (by decide)
    · exact (hres p hp).1.2 h
  · rcases hn with ⟨-, rfl⟩ | hn
    · obtain ⟨p, hp, h | ⟨rhs, hrhs, hx⟩⟩ := hsym
      · exact (hres p hp).1.1 h
      · exact ((hres p hp).2 rhs hrhs _ hx).1 rfl
    · exact hnot hn

theorem construct_chain (fuel : Nat) (start : String) (rules : StrMap RuleList) (aug : Bool)
    (g : Grammar) (h : Grammar.construct fuel start rules aug = some g) :
    ∃ g₁ g₂,
      firstLoop fuel { Grammar.init start rules aug with
        first := seedFirst (Grammar.init start rules aug).terminals
          (Grammar.init start rules aug).first } = some g₁ ∧
      followLoop fuel { g₁ with
        follow := mapSet g₁.startSymbol (setInsert ENDMARKER []) g₁.follow } = some g₂ ∧
      g = { g₂ with follow := eraseEpsilons g₂.follow } := by
  unfold Grammar.construct at h
  split at h
  · cases h
  · rename_i g₁ h₁
    obtain ⟨g₂, hl, hg⟩ := ComputeFollow_eq fuel g₁ g h
    exact ⟨g₁, g₂, h₁, hl, hg⟩

theorem tableWithin_seedFirst (U : String → Prop) (ts : List String) (m : StrMap StrSet)
    (hm : TableWithin U m) (hts : ∀ t ∈ ts, U t) : TableWithin U (seedFirst ts m) := by
  intro k s hs x hx
  rw [mapFind_seedFirst] at hs
  split at hs
  · rename_i hk
    cases hs
    have : x = k := by simpa using hx
    rw [this]
    exact hts k hk
  · exact hm k s hs x hx


/-! ## FIRST of a terminal, and FIRST within the terminals -/

/-- C6: for every production map without the reserved names AUGMENTED_START
and ENDMARKER, with or without augmentation, when the constructor returns a
grammar then every member `t` of its `terminals` (EPSILON too, when it occurs
in a body) has `first[t] = {t}`. -/
theorem c6_first_of_terminal (fuel : Nat) (start : String) (rules : StrMap RuleList)
    (aug : Bool) (g : Grammar) (hres : ReservedFree rules)
    (hc : Grammar.construct fuel start rules aug = some g) :
    ∀ t ∈ g.terminals, mapFind t g.first = some [t] := by
  obtain ⟨g₁, g₂, h₁, h₂, hg⟩ := construct_chain fuel start rules aug g hc
  have p₁ := firstLoop_phase fuel _ g₁ h₁
  have p₂ := followLoop_phase fuel _ g₂ h₂
  subst hg
  intro t ht
  have ht₀ : t ∈ (Grammar.init start rules aug).terminals := by
    have e₂ : g₂.terminals = g₁.terminals := p₂.terminals
    have e₁ : g₁.terminals = (Grammar.init start rules aug).terminals := p₁.terminals
    rw [← e₁, ← e₂]
    exact ht
  have hseed : mapFind t (seedFirst (Grammar.init start rules aug).terminals
      (Grammar.init start rules aug).first) = some [t] := by
    rw [mapFind_seedFirst, if_pos ht₀]
  have hfirst₁ : mapFind t g₁.first = some [t] :=
    p₁.first.keeps t [t] (init_disjoint start rules aug hres t ht₀) hseed
  exact p₂.first.keeps t [t] trivial hfirst₁

/-- C6 at the grammar `S -> A B c`, `A -> a | EPSILON`, `B -> b | EPSILON`:
the constructor returns within 3 passes, and every terminal of the result,
EPSILON among them, has `first[t] = {t}`. -/
theorem c6_first_of_terminal_witness :
    ∃ g, Grammar.construct 3 "S" nullableRules false = some g ∧
      EPSILON ∈ g.terminals ∧ ∀ t ∈ g.terminals, mapFind t g.first = some [t] :=
  ⟨_, rfl, by decide,
    c6_first_of_terminal 3 "S" nullableRules false _ (by
      unfold ReservedFree
      decide) rfl⟩

/-- C7: for every grammar object whose FIRST table is within `terminals`
united with `{EPSILON}` (the empty table of the constructor is), after the
terminal seeding of `ComputeFirst` and any sequence of `ComputeFirstStep`
calls that return, every entry `first[X]` is a subset of `terminals` united
with `{EPSILON}`; and so is every entry of the FIRST table of every grammar
that the constructor returns. -/
theorem c7_first_within_terminals :
    (∀ (g₀ g : Grammar) (syms : List String) (added added' : Int),
        FirstWithin g₀ →
        firstPass syms { g₀ with first := seedFirst g₀.terminals g₀.first } added
          = some (g, added') →
        FirstWithin g) ∧
    (∀ (fuel : Nat) (start : String) (rules : StrMap RuleList) (aug : Bool) (g : Grammar),
        Grammar.construct fuel start rules aug = some g → FirstWithin g) := by
  have hseed : ∀ g₀ : Grammar, FirstWithin g₀ →
      TableWithin (fun x => x ∈ g₀.terminals ∨ x = EPSILON)
        (seedFirst g₀.terminals g₀.first) :=
    fun g₀ h₀ => tableWithin_seedFirst _ g₀.terminals g₀.first h₀ (fun t ht => Or.inl ht)
  constructor
  · intro g₀ g syms added added' h₀ hp
    have p := firstPass_phase syms _ g added added' hp
    have ht : g.terminals = g₀.terminals := p.terminals
    unfold FirstWithin
    rw [ht]
    exact p.first.within _ (Or.inr rfl) (hseed g₀ h₀)
  · intro fuel start rules aug g hc
    obtain ⟨g₁, g₂, h₁, h₂, hg⟩ := construct_chain fuel start rules aug g hc
    have p₁ := firstLoop_phase fuel _ g₁ h₁
    have p₂ := followLoop_phase fuel _ g₂ h₂
    subst hg
    have e₂ : g₂.terminals = g₁.terminals := p₂.terminals
    have e₁ : g₁.terminals = (Grammar.init start rules aug).terminals := p₁.terminals
    have h₀ : FirstWithin (Grammar.init start rules aug) := by
      intro k s hs
      rw [init_first] at hs
      cases hs
    unfold FirstWithin
    dsimp only
    rw [e₂, e₁]
    exact p₂.first.within _ (Or.inr rfl)
      (p₁.first.within _ (Or.inr rfl) (hseed _ h₀))

/-- C7 at the grammar `S -> A B c`, `A -> a | EPSILON`, `B -> b | EPSILON`:
after the seeding and the calls of `ComputeFirstStep` on `A, B, S, A, B, S`,
and after the whole construction, the FIRST table is within the terminals and
EPSILON. -/
theorem c7_first_within_terminals_witness :
    (∃ g added,
        firstPass ["A", "B", "S", "A", "B", "S"]
          { Grammar.init "S" nullableRules false with
            first := seedFirst (Grammar.init "S" nullableRules false).terminals
              (Grammar.init "S" nullableRules false).first } 0 = some (g, added) ∧
        FirstWithin g) ∧
    (∃ g, Grammar.construct 3 "S" nullableRules false = some g ∧ FirstWithin g) :=
  ⟨⟨_, _, rfl, c7_first_within_terminals.1 (Grammar.init "S" nullableRules false) _
      ["A", "B", "S", "A", "B", "S"] 0 _ (fun _ _ hs => nomatch hs) rfl⟩,
    ⟨_, rfl, c7_first_within_terminals.2 3 "S" nullableRules false _ rfl⟩⟩


/-! ## Augmentation -/

theorem ComputeFollowStep_unit (g : Grammar) (A S : String) (s : StrSet)
    (hr : mapFind A g.rules = some [[S]]) (hS : S ∈ g.nonterminals)
    (hf : mapFind A g.follow = some s) :
    ∃ s', mapFind S (g.ComputeFollowStep A).1.follow = some s' ∧ ∀ x ∈ s, x ∈ s' := by
  have hr' : (mapFind A g.rules).isSome = true := by rw [hr]; rfl
  have hget : mapGet A [] g.rules = [[S]] := by simp [mapGet, hr]
  unfold Grammar.ComputeFollowStep
  simp only [mapTouch_of_isSome A [] g.rules hr', hget, hf, Option.isNone_some, Bool.false_eq_true,
    if_false, followStepRules, followStepBody, setContains, hS, decide_True, if_true,
    Grammar.ComputeFirstWord, List.isEmpty_nil, Bool.not_true, Bool.true_or]
  refine ⟨_, by rw [mapFind_mapSet, if_pos rfl], ?_⟩
  intro x hx
  apply (mem_setInsertRange _ _ x).mpr
  left
  rw [mapGet_mapTouch, mapGet_mapTouch]
  simpa [mapGet, hf] using hx

theorem followPass_reaches (A S x : String) :
    ∀ (l : List String) (g : Grammar) (added : Int), A ∈ l →
      mapFind A g.rules = some [[S]] → S ∈ g.nonterminals →
      (∀ k ∈ l, (mapFind k g.rules).isSome) →
      (∃ s, mapFind A g.follow = some s ∧ x ∈ s) →
      ∃ s, mapFind S (followPass l g added).1.follow = some s ∧ x ∈ s
  | [], _, _, hA, _, _, _, _ => by simp at hA
  | nt :: rest, g, added, hA, hr, hS, hk, ⟨s, hs, hx⟩ => by
    unfold followPass
    have ph := ComputeFollowStep_phase g nt
    by_cases hnt : nt = A
    · subst hnt
      obtain ⟨s', hs', hsub⟩ := ComputeFollowStep_unit g nt S s hr hS hs
      generalize g.ComputeFollowStep nt = r at ph hs' ⊢
      obtain ⟨g₁, n⟩ := r
      dsimp only at ph hs' ⊢
      obtain ⟨s₃, hs₃, hsub₃⟩ := (followPass_phase rest g₁ (added + n)).follow.grows S s' hs'
      exact ⟨s₃, hs₃, hsub₃ x (hsub x hx)⟩
    · generalize g.ComputeFollowStep nt = r at ph ⊢
      obtain ⟨g₁, n⟩ := r
      dsimp only at ph ⊢
      have hrules : g₁.rules = g.rules := ph.rules (fun k hkm => hk k (by
        have : k = nt := by simpa using hkm
        rw [this]
        exact List.mem_cons_self nt rest))
      have hA' : A ∈ rest := by
        rcases List.mem_cons.mp hA with h | h
        · exact absurd h.symm hnt
        · exact h
      obtain ⟨s₁, hs₁, hsub₁⟩ := ph.follow.grows A s hs
      exact followPass_reaches A S x rest g₁ (added + n) hA' (by rw [hrules]; exact hr)
        (by rw [ph.nonterminals]; exact hS)
        (fun k hkr => by rw [hrules]; exact hk k (List.mem_cons_of_mem nt hkr))
        ⟨s₁, hs₁, hsub₁ x hx⟩

theorem mem_mapReplace {V : Type} (k : String) (v : V) (m : StrMap V) (p : String × V)
    (h : p ∈ mapReplace k v m) : p = (k, v) ∨ p ∈ m := by
  induction m with
  | nil => simp [mapReplace] at h
  | cons q t ih =>
    unfold mapReplace at h
    split at h
    · rename_i hq
      rcases List.mem_cons.mp h with h | h
      · left
        rw [h, hq]
      · exact Or.inr (List.mem_cons_of_mem q h)
    · rcases List.mem_cons.mp h with h | h
      · right
        rw [h]
        exact List.mem_cons_self q t
      · rcases ih h with h | h
        · exact Or.inl h
        · exact Or.inr (List.mem_cons_of_mem q h)

theorem mem_mapSet {V : Type} (k : String) (v : V) (m : StrMap V) (p : String × V)
    (h : p ∈ mapSet k v m) : p = (k, v) ∨ p ∈ m := by
  unfold mapSet at h
  split at h
  · exact mem_mapReplace k v m p h
  · exact (mem_mapPlace k v m p).mp h

theorem inBody_mapSet_unit (rules : StrMap RuleList) (k S x : String)
    (h : InBody (mapSet k [[S]] rules) x) : x = S ∨ InBody rules x := by
  obtain ⟨p, hp, rhs, hrhs, hx⟩ := h
  rcases mem_mapSet k [[S]] rules p hp with hp | hp
  · subst hp
    have : rhs = [S] := by simpa using hrhs
    subst this
    left
    simpa using hx
  · exact Or.inr ⟨p, hp, rhs, hrhs, hx⟩


theorem construct_augmented (fuel : Nat) (S : String) (rules : StrMap RuleList) (g : Grammar)
    (hres : ReservedFree rules) (hS : (mapFind S rules).isSome = true)
    (hc : Grammar.construct fuel S rules true = some g) :
    g.startSymbol = AUGMENTED_START ∧
      mapFind AUGMENTED_START g.rules = some [[S]] ∧
      (∀ h, h ≠ AUGMENTED_START → mapFind h g.rules = mapFind h rules) ∧
      ENDMARKER ∈ g.terminals ∧
      mapFind AUGMENTED_START g.follow = some [ENDMARKER] ∧
      ∃ s, mapFind S g.follow = some s ∧ ENDMARKER ∈ s := by
  obtain ⟨g₁, g₂, h₁, h₂, hg⟩ := construct_chain fuel S rules true g hc
  have p₁ := firstLoop_phase fuel _ g₁ h₁
  have p₂ := followLoop_phase fuel _ g₂ h₂
  -- the grammar object before the tables are computed
  have eR : (Grammar.init S rules true).rules = mapSet AUGMENTED_START [[S]] rules := by
    rw [init_rules]
    rfl
  have eS : (Grammar.init S rules true).startSymbol = AUGMENTED_START := by
    rw [init_startSymbol]
    rfl
  obtain ⟨rl, hrl⟩ := Option.isSome_iff_exists.mp hS
  have hSmem : (S, rl) ∈ rules := mapFind_mem S rl rules hrl
  have hSne : S ≠ AUGMENTED_START := (hres _ hSmem).1.1
  have hSnt : S ∈ (Grammar.init S rules true).nonterminals :=
    (mem_init_nonterminals S rules true S).mpr (Or.inr ⟨_, hSmem, rfl⟩)
  have hAnt : AUGMENTED_START ∈ (Grammar.init S rules true).nonterminals :=
    (mem_init_nonterminals S rules true _).mpr (Or.inl ⟨rfl, rfl⟩)
  have hpresent : ∀ k ∈ (Grammar.init S rules true).nonterminals,
      (mapFind k (mapSet AUGMENTED_START [[S]] rules)).isSome = true := by
    intro k hk
    rw [mapFind_mapSet]
    split
    · rfl
    · rcases (mem_init_nonterminals S rules true k).mp hk with ⟨-, h⟩ | ⟨p, hp, h⟩
      · contradiction
      · subst h
        exact mapFind_isSome_of_mem p.1 p.2 rules hp
  have hnoA : ¬ InBody (mapSet AUGMENTED_START [[S]] rules) AUGMENTED_START := by
    intro hb
    rcases inBody_mapSet_unit rules _ S _ hb with h | ⟨p, hp, rhs, hrhs, hx⟩
    · exact hSne h.symm
    · exact ((hres p hp).2 rhs hrhs _ hx).1 rfl
  -- after ComputeFirst
  have n₁ : g₁.nonterminals = (Grammar.init S rules true).nonterminals := p₁.nonterminals
  have r₁ : g₁.rules = mapSet AUGMENTED_START [[S]] rules := by
    rw [← eR]
    exact p₁.rules (by
      intro k hk
      dsimp only
      rw [eR]
      exact hpresent k hk)
  have s₁ : g₁.startSymbol = AUGMENTED_START := p₁.startSymbol.trans eS
  have f₁ : g₁.follow = [] := p₁.follow.trans (init_follow S rules true)
  have t₁ : g₁.terminals = (Grammar.init S rules true).terminals := p₁.terminals
  -- after the loop of ComputeFollow
  have r₂ : g₂.rules = mapSet AUGMENTED_START [[S]] rules := by
    rw [← r₁]
    exact p₂.rules (by
      intro k hk
      dsimp only at hk ⊢
      rw [r₁]
      rw [n₁] at hk
      exact hpresent k hk)
  have hseed : mapFind AUGMENTED_START
      (mapSet g₁.startSymbol (setInsert ENDMARKER []) g₁.follow) = some [ENDMARKER] := by
    rw [s₁, mapFind_mapSet, if_pos rfl]
    rfl
  have hA₂ : mapFind AUGMENTED_START g₂.follow = some [ENDMARKER] :=
    p₂.follow.frame _ _ (by dsimp only; rw [r₁]; exact hnoA) hseed
  have hS₂ : ∃ s, mapFind S g₂.follow = some s ∧ ENDMARKER ∈ s := by
    cases fuel with
    | zero => simp [followLoop] at h₂
    | succ n =>
      unfold followLoop at h₂
      have hreach := followPass_reaches AUGMENTED_START S ENDMARKER
        g₁.nonterminals
        { g₁ with follow := mapSet g₁.startSymbol (setInsert ENDMARKER []) g₁.follow } 0
        (by rw [n₁]; exact hAnt)
        (by dsimp only; rw [r₁, mapFind_mapSet, if_pos rfl])
        (by dsimp only; rw [n₁]; exact hSnt)
        (by
          intro k hk
          dsimp only
          rw [r₁]
          rw [n₁] at hk
          exact hpresent k hk)
        ⟨[ENDMARKER], hseed, by simp⟩
      dsimp only at h₂
      generalize followPass g₁.nonterminals
        { g₁ with follow := mapSet g₁.startSymbol (setInsert ENDMARKER []) g₁.follow } 0 = r
        at h₂ hreach
      obtain ⟨g₃, added⟩ := r
      dsimp only at h₂ hreach
      obtain ⟨s, hs, hx⟩ := hreach
      split at h₂
      · obtain ⟨s', hs', hsub⟩ := (followLoop_phase n g₃ g₂ h₂).follow.grows S s hs
        exact ⟨s', hs', hsub _ hx⟩
      · simp only [Option.some.injEq] at h₂
        rw [← h₂]
        exact ⟨s, hs, hx⟩
  subst hg
  refine ⟨p₂.startSymbol.trans s₁, ?_, ?_, ?_, ?_, ?_⟩
  · dsimp only
    rw [r₂, mapFind_mapSet, if_pos rfl]
  · intro h hh
    dsimp only
    rw [r₂, mapFind_mapSet, if_neg hh]
  · have t₂ : g₂.terminals = g₁.terminals := p₂.terminals
    dsimp only
    rw [t₂, t₁]
    exact (mem_init_terminals S rules true _).mpr (Or.inl ⟨rfl, rfl⟩)
  · dsimp only
    rw [mapFind_eraseEpsilons, hA₂]
    rfl
  · obtain ⟨s, hs, hx⟩ := hS₂
    refine ⟨setErase EPSILON s, ?_, ?_⟩
    · dsimp only
      rw [mapFind_eraseEpsilons, hs]
      rfl
    · exact (mem_setErase EPSILON ENDMARKER s).mpr ⟨hx, by decide⟩

/-- C5: for every production map without the reserved names AUGMENTED_START
and ENDMARKER and every start symbol `S` that is one of its heads, when the
constructor with `shouldAugment = true` returns a grammar, then its
`startSymbol` is AUGMENTED_START, the production list of AUGMENTED_START is
the single body `[S]`, every other head has the production list it had,
ENDMARKER is in `terminals`, `follow[AUGMENTED_START] = {ENDMARKER}`, and
ENDMARKER is in `follow[S]`. For the grammar `S -> a` the constructor returns,
with any bound of at least 2 passes, a grammar with
`follow[S] = {ENDMARKER}`. -/
theorem c5_augmented_start :
    (∀ (fuel : Nat) (S : String) (rules : StrMap RuleList) (g : Grammar),
        ReservedFree rules → (mapFind S rules).isSome = true →
        Grammar.construct fuel S rules true = some g →
        g.startSymbol = AUGMENTED_START ∧
        mapFind AUGMENTED_START g.rules = some [[S]] ∧
        (∀ h, h ≠ AUGMENTED_START → mapFind h g.rules = mapFind h rules) ∧
        ENDMARKER ∈ g.terminals ∧
        mapFind AUGMENTED_START g.follow = some [ENDMARKER] ∧
        ∃ s, mapFind S g.follow = some s ∧ ENDMARKER ∈ s) ∧
    (∀ k, ∃ g, Grammar.construct (2 + k) "S" singleRules true = some g ∧
        mapFind "S" g.follow = some [ENDMARKER]) := by
  refine ⟨construct_augmented, ?_⟩
  intro k
  have hs : (Grammar.construct 2 "S" singleRules true).isSome = true := by rfl
  exact ⟨(Grammar.construct 2 "S" singleRules true).get hs,
    construct_mono 2 k _ _ _ _ (Option.some_get hs).symm, by rfl⟩

/-- C5 at the grammar `E -> E + T | T`, `T -> T * F | F`, `F -> ( E ) | id`
with start symbol `E`: it uses no reserved name, `E` is a head, the augmenting
constructor returns within 4 passes, and the result has the six properties. -/
theorem c5_augmented_start_witness :
    ReservedFree exprRules ∧ (mapFind "E" exprRules).isSome = true ∧
      ∃ g, Grammar.construct 4 "E" exprRules true = some g ∧
        (g.startSymbol = AUGMENTED_START ∧
          mapFind AUGMENTED_START g.rules = some [["E"]] ∧
          (∀ h, h ≠ AUGMENTED_START → mapFind h g.rules = mapFind h exprRules) ∧
          ENDMARKER ∈ g.terminals ∧
          mapFind AUGMENTED_START g.follow = some [ENDMARKER] ∧
          ∃ s, mapFind "E" g.follow = some s ∧ ENDMARKER ∈ s) :=
  ⟨by unfold ReservedFree; decide, rfl, _, rfl,
    c5_augmented_start.1 4 "E" exprRules _ (by unfold ReservedFree; decide) rfl rfl⟩

/-! ## The ordering of items -/

/-- C18, the code on a failing input: the items (AUGMENTED_START, 0, 0,
ENDMARKER) and (S, 0, 0, ENDMARKER) differ in their heads, and `operator<`
puts neither below the other, so an item set takes them for the same element;
the lexicographic order on the 4-tuple puts the first below the second. -/
theorem c18_distinct_items_equivalent :
    itemLess initialItem ⟨"S", 0, 0, ENDMARKER⟩ = false ∧
      itemLess ⟨"S", 0, 0, ENDMARKER⟩ initialItem = false ∧
      initialItem ≠ ⟨"S", 0, 0, ENDMARKER⟩ ∧
      strLess initialItem.ProductionHead "S" = true := by
  decide

/-! ## `Closure` returns its argument or does not return -/

theorem extends_refl (l : List Item) : Extends l l :=
  ⟨le_refl _, fun _ => rfl⟩

theorem extends_trans {l₁ l₂ l₃ : List Item} (h₁ : Extends l₁ l₂) (h₂ : Extends l₂ l₃) :
    Extends l₁ l₃ := by
  refine ⟨le_trans h₁.1 h₂.1, ?_⟩
  intro h
  have e₂ : l₂.length = l₁.length := le_antisymm (h ▸ h₂.1) h₁.1
  have e₃ : l₃ = l₂ := h₂.2 (h.trans e₂.symm)
  rw [e₃]
  exact h₁.2 e₂

theorem itemSetInsert_extends (x : Item) :
    ∀ l : List Item, Extends l (itemSetInsert x l).2
  | [] => by
    refine ⟨by simp [itemSetInsert], ?_⟩
    intro h
    simp [itemSetInsert] at h
  | e :: t => by
    unfold itemSetInsert
    split
    · have ih := itemSetInsert_extends x t
      generalize itemSetInsert x t = r at ih ⊢
      obtain ⟨p, t'⟩ := r
      dsimp only at ih ⊢
      refine ⟨by simpa using ih.1, ?_⟩
      intro h
      have : t' = t := ih.2 (by simpa using h)
      rw [this]
    · split
      · refine ⟨by simp, ?_⟩
        intro h
        simp at h
      · exact extends_refl _

theorem closureTerminals_extends (nonterminal : String) (ruleIndex : Int) :
    ∀ (ts : List String) (items : List Item) (pos : Nat),
      Extends items (closureTerminals nonterminal ruleIndex ts (items, pos)).1
  | [], items, _ => extends_refl items
  | terminal :: rest, items, pos => by
    unfold closureTerminals
    dsimp only
    have h := itemSetInsert_extends ⟨nonterminal, ruleIndex, 0, terminal⟩ items
    generalize itemSetInsert _ items = r at h ⊢
    obtain ⟨p, items'⟩ := r
    exact extends_trans h (closureTerminals_extends nonterminal ruleIndex rest items' _)

theorem closureBodies_extends (nonterminal : String) (firstTail : StrSet) :
    ∀ (bodies : RuleList) (k : Nat) (items : List Item) (pos : Nat),
      Extends items (closureBodies nonterminal firstTail k bodies (items, pos)).1
  | [], _, items, _ => extends_refl items
  | _ :: rest, k, items, pos => by
    unfold closureBodies
    have h := closureTerminals_extends nonterminal (-(k : Int)) firstTail items pos
    generalize closureTerminals nonterminal (-(k : Int)) firstTail (items, pos) = r at h ⊢
    obtain ⟨items', pos'⟩ := r
    exact extends_trans h (closureBodies_extends nonterminal firstTail rest (k + 1) items' pos')

theorem closureFor_extends :
    ∀ (fuel : Nat) (g g' : Grammar) (items items' : List Item) (pos : Nat),
      closureFor fuel g items pos = some (g', items') → Extends items items'
  | 0, _, _, _, _, _, h => by simp [closureFor] at h
  | fuel + 1, g, g', items, items', pos, h => by
    unfold closureFor at h
    split at h
    · simp only [Option.some.injEq, Prod.mk.injEq] at h
      rw [← h.2]
      exact extends_refl _
    · dsimp only at h
      split at h
      · cases h
      · split at h
        · cases h
        · rename_i nonterminal _
          split at h
          · exact closureFor_extends fuel _ g' items items' _ h
          · exact extends_trans (closureBodies_extends nonterminal _ _ 0 items pos)
              (closureFor_extends fuel _ g' _ items' _ h)

theorem closureLoop_positive (bound : Nat) :
    ∀ (fuel : Nat) (g : Grammar) (items : List Item) (added : Int),
      0 < added → closureLoop bound fuel g items added = none
  | 0, _, _, _, _ => rfl
  | fuel + 1, g, items, added, ha => by
    unfold closureLoop
    dsimp only
    split
    · rfl
    · rename_i g₁ items₁ hf
      have hle := (closureFor_extends bound g g₁ items items₁ 0 hf).1
      have hpos : 0 < added + ((items₁.length : Int) - (items.length : Int)) := by omega
      rw [if_pos (by simpa using (ne_of_gt hpos))]
      exact closureLoop_positive bound fuel g₁ items₁ _ hpos

theorem closureLoop_returns (bound fuel : Nat) (g g' : Grammar) (items items' : List Item)
    (h : closureLoop bound fuel g items 0 = some (g', items')) :
    items' = items ∧ closureFor bound g items 0 = some (g', items) := by
  cases fuel with
  | zero => simp [closureLoop] at h
  | succ n =>
    unfold closureLoop at h
    dsimp only at h
    split at h
    · cases h
    · rename_i g₁ items₁ hf
      have hx := closureFor_extends bound g g₁ items items₁ 0 hf
      split at h
      · rename_i hne
        have hpos : 0 < 0 + ((items₁.length : Int) - (items.length : Int)) := by
          have h0 : (0 : Int) + ((items₁.length : Int) - (items.length : Int)) ≠ 0 := by
            simpa using hne
          have := hx.1
          omega
        rw [closureLoop_positive bound n g₁ items₁ _ hpos] at h
        cases h
      · rename_i hz
        simp only [Option.some.injEq, Prod.mk.injEq] at h
        have hlen : items₁.length = items.length := by
          have h0 : (0 : Int) + ((items₁.length : Int) - (items.length : Int)) = 0 := by
            simpa using hz
          omega
        have e : items₁ = items := hx.2 hlen
        rw [← h.1, ← h.2, e]
        exact ⟨rfl, by rw [e] at hf; exact hf⟩

/-- C20: with `added` an unbounded integer, for every grammar object and every
item set `I`, when `Closure` returns (no index out of range, the loop left)
the returned set is `I` itself: `added` is never reset, so the loop is left
only when the first pass inserts no item. -/
theorem c20_closure_returns_argument (g g' : Grammar) (fuel : Nat) (I J : List Item)
    (h : g.Closure fuel I = some (g', J)) : J = I :=
  (closureLoop_returns fuel fuel g g' I J h).1

/-- C20 at the augmented grammar `S -> C C`, `C -> c C | d` and the set of the
item (AUGMENTED_START, 0, 0, ENDMARKER): `Closure` returns, and returns that
set. -/
theorem c20_closure_returns_argument_witness :
    ∃ g g' J, Grammar.construct 3 "S" ccRules true = some g ∧
      g.Closure 2 [initialItem] = some (g', J) ∧ J = [initialItem] := by
  have hs : (Grammar.construct 3 "S" ccRules true).isSome = true := by rfl
  have hc : ((((Grammar.construct 3 "S" ccRules true).get hs).Closure 2
      [initialItem])).isSome = true := by rfl
  exact ⟨_, _, _, (Option.some_get hs).symm, (Option.some_get hc).symm,
    c20_closure_returns_argument _ _ 2 [initialItem] _ (Option.some_get hc).symm⟩

/-- C12, the code on the scenario's input: for the grammar `S -> C C`,
`C -> c C | d` built with augmentation (any bound of at least 3 passes),
`Closure` of the set that holds only (AUGMENTED_START, 0, 0, ENDMARKER)
returns that same one-element set: none of (S, 0, 0, ENDMARKER), (C, 0, 0, c),
(C, 0, 0, d), (C, 1, 0, c), (C, 1, 0, d) is in it. -/
theorem c12_closure_of_initial_item :
    ∀ k, ∃ g g', Grammar.construct (3 + k) "S" ccRules true = some g ∧
      g.Closure 2 [initialItem] = some (g', [initialItem]) ∧
      (∀ x ∈ closureExpected, x ∉ [initialItem]) := by
  intro k
  have hs : (Grammar.construct 3 "S" ccRules true).isSome = true := by rfl
  exact ⟨(Grammar.construct 3 "S" ccRules true).get hs, _,
    construct_mono 3 k _ _ _ _ (Option.some_get hs).symm, by rfl, by decide⟩

/-! ## `Closure` on a grammar object that reads the same -/

theorem firstWordWhile_reads (word : List String) :
    ∀ (fuel index : Nat) (current : String) (first first' : StrMap StrSet) (wordFirst : StrSet),
      (∀ k, mapGet k [] first' = mapGet k [] first) →
        (firstWordWhile word fuel index current first' wordFirst).1 =
            (firstWordWhile word fuel index current first wordFirst).1 ∧
          (firstWordWhile word fuel index current first' wordFirst).2.1 =
            (firstWordWhile word fuel index current first wordFirst).2.1 ∧
          (firstWordWhile word fuel index current first' wordFirst).2.2.2 =
            (firstWordWhile word fuel index current first wordFirst).2.2.2 ∧
          ∀ k, mapGet k [] (firstWordWhile word fuel index current first' wordFirst).2.2.1 =
            mapGet k [] (firstWordWhile word fuel index current first wordFirst).2.2.1
  | 0, _, _, _, _, _, h => ⟨rfl, rfl, rfl, h⟩
  | fuel + 1, index, current, first, first', wordFirst, h => by
    unfold firstWordWhile
    simp only [mapGet_mapTouch, h]
    split
    · exact firstWordWhile_reads word fuel _ _ _ _ _ (by
        intro k
        simp only [mapGet_mapTouch, h])
    · exact ⟨rfl, rfl, rfl, by
        intro k
        simp only [mapGet_mapTouch, h]⟩

theorem firstWordWhile_keeps_reads (word : List String) :
    ∀ (fuel index : Nat) (current : String) (first : StrMap StrSet) (wordFirst : StrSet)
      (k : String),
      mapGet k [] (firstWordWhile word fuel index current first wordFirst).2.2.1 =
        mapGet k [] first
  | 0, _, _, _, _, _ => rfl
  | fuel + 1, index, current, first, wordFirst, k => by
    unfold firstWordWhile
    dsimp only
    split
    · rw [firstWordWhile_keeps_reads word fuel, mapGet_mapTouch, mapGet_mapTouch]
    · exact mapGet_mapTouch _ _ _ _

theorem ComputeFirstWord_keeps_reads (g : Grammar) (word : List String) :
    SameReads g (g.ComputeFirstWord word).1 := by
  unfold Grammar.ComputeFirstWord
  split
  · exact ⟨rfl, fun _ => rfl, fun _ => rfl⟩
  · dsimp only
    split <;>
    · refine ⟨rfl, fun _ => rfl, fun k => ?_⟩
      dsimp only
      rw [firstWordWhile_keeps_reads, mapGet_mapTouch]

theorem ComputeFirstWord_reads (g g' : Grammar) (word : List String) (h : SameReads g g') :
    (g'.ComputeFirstWord word).2 = (g.ComputeFirstWord word).2 ∧
      SameReads (g.ComputeFirstWord word).1 (g'.ComputeFirstWord word).1 := by
  have k₁ := ComputeFirstWord_keeps_reads g word
  have k₂ := ComputeFirstWord_keeps_reads g' word
  refine ⟨?_, ⟨by rw [k₂.nonterminals, k₁.nonterminals, h.nonterminals],
    fun k => by rw [k₂.rules, k₁.rules, h.rules],
    fun k => by rw [k₂.first, k₁.first, h.first]⟩⟩
  unfold Grammar.ComputeFirstWord
  split
  · rfl
  · rename_i current rest
    dsimp only
    have hw := firstWordWhile_reads (current :: rest) (current :: rest).length 0 current
      (mapTouch current [] g.first) (mapTouch current [] g'.first)
      (setInsertRange (mapGet current [] (mapTouch current [] g.first)) [])
      (by
        intro k
        simp only [mapGet_mapTouch, h.first])
    have e : mapGet current [] (mapTouch current [] g'.first) =
        mapGet current [] (mapTouch current [] g.first) := by
      simp only [mapGet_mapTouch, h.first]
    rw [e]
    obtain ⟨h₁, h₂, h₃, h₄⟩ := hw
    rw [h₁, h₂, h₃, h₄]
    split <;> rfl

theorem closureFor_reads :
    ∀ (fuel : Nat) (g g' g₁ : Grammar) (items J : List Item) (pos : Nat),
      SameReads g g' → closureFor fuel g items pos = some (g₁, J) →
        ∃ g₁', closureFor fuel g' items pos = some (g₁', J) ∧ SameReads g₁ g₁'
  | 0, _, _, _, _, _, _, _, h => by simp [closureFor] at h
  | fuel + 1, g, g', g₁, items, J, pos, hs, h => by
    unfold closureFor at h ⊢
    simp only [mapGet_mapTouch, hs.rules, hs.nonterminals] at h ⊢
    split at h
    · simp only [Option.some.injEq, Prod.mk.injEq] at h ⊢
      refine ⟨g', ⟨rfl, h.2⟩, ?_⟩
      rw [← h.1]
      exact hs
    · split at h
      · cases h
      · split at h
        · cases h
        · rename_i item _ _ body _ _ nonterminal _
          have hs₁ : SameReads { g with rules := mapTouch item.ProductionHead [] g.rules }
              { g' with rules := mapTouch item.ProductionHead [] g'.rules,
                        nonterminals := g.nonterminals } :=
            ⟨rfl, fun k => by simp only [mapGet_mapTouch, hs.rules], hs.first⟩
          split at h
          · rename_i hnt
            rw [if_pos hnt]
            exact closureFor_reads fuel _ _ g₁ items J _ hs₁ h
          · rename_i hnt
            rw [if_neg hnt]
            have hcw := ComputeFirstWord_reads _ _
              (List.drop (item.DotIndex.toNat + 1) body ++ [item.Lookahead]) hs₁
            generalize Grammar.ComputeFirstWord
              { g with rules := mapTouch item.ProductionHead [] g.rules }
              (List.drop (item.DotIndex.toNat + 1) body ++ [item.Lookahead]) = r at hcw h
            generalize Grammar.ComputeFirstWord
              { g' with rules := mapTouch item.ProductionHead [] g'.rules,
                        nonterminals := g.nonterminals }
              (List.drop (item.DotIndex.toNat + 1) body ++ [item.Lookahead]) = r' at hcw ⊢
            obtain ⟨X, ft⟩ := r
            obtain ⟨X', ft'⟩ := r'
            dsimp only at hcw h ⊢
            obtain ⟨e, hs₂⟩ := hcw
            subst e
            rw [hs₂.rules]
            exact closureFor_reads fuel { X with rules := mapTouch nonterminal [] X.rules } _
              g₁ _ J _
              ⟨hs₂.nonterminals, fun k => by simp only [mapGet_mapTouch, hs₂.rules], hs₂.first⟩ h

theorem closureFor_keeps_reads :
    ∀ (fuel : Nat) (g g₁ : Grammar) (items J : List Item) (pos : Nat),
      closureFor fuel g items pos = some (g₁, J) → SameReads g g₁
  | 0, _, _, _, _, _, h => by simp [closureFor] at h
  | fuel + 1, g, g₁, items, J, pos, h => by
    unfold closureFor at h
    split at h
    · simp only [Option.some.injEq, Prod.mk.injEq] at h
      rw [← h.1]
      exact ⟨rfl, fun _ => rfl, fun _ => rfl⟩
    · dsimp only at h
      split at h
      · cases h
      · split at h
        · cases h
        · rename_i item _ _ body _ _ nonterminal _
          have hs₁ : SameReads g { g with rules := mapTouch item.ProductionHead [] g.rules } :=
            ⟨rfl, fun k => mapGet_mapTouch _ _ _ _, fun _ => rfl⟩
          split at h
          · have := closureFor_keeps_reads fuel _ g₁ items J _ h
            exact ⟨this.nonterminals.trans hs₁.nonterminals,
              fun k => (this.rules k).trans (hs₁.rules k),
              fun k => (this.first k).trans (hs₁.first k)⟩
          · have hcw := ComputeFirstWord_keeps_reads
              { g with rules := mapTouch item.ProductionHead [] g.rules }
              (List.drop (item.DotIndex.toNat + 1) body ++ [item.Lookahead])
            have := closureFor_keeps_reads fuel _ g₁ _ J _ h
            refine ⟨this.nonterminals.trans (hcw.nonterminals.trans hs₁.nonterminals),
              fun k => (this.rules k).trans ?_,
              fun k => (this.first k).trans ((hcw.first k).trans (hs₁.first k))⟩
            dsimp only
            rw [mapGet_mapTouch]
            exact (hcw.rules k).trans (hs₁.rules k)

theorem closureLoop_reads (bound : Nat) :
    ∀ (fuel : Nat) (g g' g₁ : Grammar) (items J : List Item) (added : Int),
      SameReads g g' → closureLoop bound fuel g items added = some (g₁, J) →
        ∃ g₁', closureLoop bound fuel g' items added = some (g₁', J)
  | 0, _, _, _, _, _, _, _, h => by simp [closureLoop] at h
  | fuel + 1, g, g', g₁, items, J, added, hs, h => by
    unfold closureLoop at h ⊢
    dsimp only at h ⊢
    split at h
    · cases h
    · rename_i g₂ items₂ hf
      obtain ⟨g₂', hf', hs₂⟩ := closureFor_reads bound g g' g₂ items items₂ 0 hs hf
      rw [hf']
      dsimp only
      split at h
      · rename_i ha
        rw [if_pos ha]
        exact closureLoop_reads bound fuel g₂ g₂' g₁ items₂ J _ hs₂ h
      · rename_i ha
        rw [if_neg ha]
        simp only [Option.some.injEq, Prod.mk.injEq] at h
        exact ⟨g₂', by rw [h.2]⟩

theorem closure_bind_closure (g : Grammar) (fuel : Nat) (I : List Item) :
    (g.Closure fuel I).bind (fun r => (r.1.Closure fuel r.2).map Prod.snd) =
      (g.Closure fuel I).map Prod.snd := by
  cases h : g.Closure fuel I with
  | none => rfl
  | some r =>
    obtain ⟨g₁, J⟩ := r
    have hJ : J = I := (closureLoop_returns fuel fuel g g₁ I J h).1
    subst hJ
    have hs : SameReads g g₁ :=
      closureFor_keeps_reads fuel g g₁ J J 0 (closureLoop_returns fuel fuel g g₁ J J h).2
    obtain ⟨g₂, h₂⟩ := closureLoop_reads fuel fuel g g₁ g₁ J J 0 hs h
    show Option.map Prod.snd (closureLoop fuel fuel g₁ J 0) = some J
    rw [h₂]
    rfl

theorem closureFor_mono :
    ∀ (n k : Nat) (g : Grammar) (items : List Item) (pos : Nat) (r : Grammar × List Item),
      closureFor n g items pos = some r → closureFor (n + k) g items pos = some r
  | 0, _, _, _, _, _, h => by simp [closureFor] at h
  | n + 1, k, g, items, pos, r, h => by
    have e : n + 1 + k = (n + k) + 1 := by omega
    rw [e]
    unfold closureFor at h ⊢
    split at h
    · exact h
    · dsimp only at h ⊢
      split at h
      · cases h
      · split at h
        · cases h
        · split at h
          · rename_i hnt
            rw [if_pos hnt]
            exact closureFor_mono n k _ _ _ r h
          · rename_i hnt
            rw [if_neg hnt]
            exact closureFor_mono n k _ _ _ r h

theorem altState_closureLoop (bound fuel : Nat) :
    closureLoop bound fuel altState [altItem] 0 = none := by
  cases h : closureLoop bound fuel altState [altItem] 0 with
  | none => rfl
  | some r =>
    exfalso
    obtain ⟨g', J⟩ := r
    have hf := (closureLoop_returns bound fuel altState g' [altItem] J h).2
    have h₂ : closureFor 2 altState [altItem] 0 = some (altState, [altInserted, altItem]) := by
      rfl
    match bound, hf with
    | 0, hf => simp [closureFor] at hf
    | 1, hf =>
      have h₁ : closureFor 1 altState [altItem] 0 = none := by rfl
      rw [h₁] at hf
      cases hf
    | b + 2, hf =>
      have e : b + 2 = 2 + b := by omega
      rw [e, closureFor_mono 2 b altState [altItem] 0 _ h₂] at hf
      simp at hf

/-- C13, the code on a failing input: for the grammar `T -> x | A`, `A -> y`
built with augmentation and the item set that holds only the item
(T, 1, 0, ENDMARKER), whose head, rule index and dot position exist, the first
pass of `Closure` returns and has inserted (A, 0, 0, ENDMARKER), so `added`
is 1; every later pass returns, inserts nothing and leaves the grammar object
as it is, and `added` is not reset: with no bound on the passes and on the
items of a pass does `Closure` return. `Closure(I)` has no value, and
`Closure(Closure(I)) = Closure(I)` has nothing to compare. For the complete
item (A, 0, 1, ENDMARKER) the pass indexes the body out of range. -/
theorem c13_closure_does_not_return :
    (∀ k, Grammar.construct (2 + k) "T" altRules true = some altState) ∧
      closureFor 2 altState [altItem] 0 = some (altState, [altInserted, altItem]) ∧
      closureFor 3 altState [altInserted, altItem] 0 =
        some (altState, [altInserted, altItem]) ∧
      (∀ bound fuel, closureLoop bound fuel altState [altItem] 0 = none) ∧
      (∀ fuel, altState.Closure fuel [altItem] = none) ∧
      (∀ bound, closureFor bound altState [⟨"A", 0, 1, ENDMARKER⟩] 0 = none) := by
  refine ⟨fun k => construct_mono 2 k _ _ _ _ (by rfl), by rfl, by rfl,
    altState_closureLoop, fun fuel => altState_closureLoop fuel fuel, ?_⟩
  intro bound
  cases bound with
  | zero => rfl
  | succ b => rfl

/-! ## `GoTo` -/

/-- C14, the claim fails: on the augmented grammar `S -> C C`, `C -> c C | d`
and the item set that holds only (S, 0, 0, ENDMARKER), `GoTo` over `C` returns
the empty set, while the closure of the advanced items is the set that holds
(S, 0, 1, ENDMARKER); and `GoTo` over `C` of the closure of the initial item
holds none of the three expected items. -/
theorem c14_goto_is_not_closure_of_advanced :
    ∃ g g', Grammar.construct 3 "S" ccRules true = some g ∧
      GoTo [⟨"S", 0, 0, ENDMARKER⟩] "C" = [] ∧
      gotoSpec g 2 [⟨"S", 0, 0, ENDMARKER⟩] "C" = some (g', [⟨"S", 0, 1, ENDMARKER⟩]) ∧
      (g.Closure 2 [initialItem]).map Prod.snd = some [initialItem] ∧
      ∀ x ∈ gotoExpected, x ∉ GoTo [initialItem] "C" := by
  have hs : (Grammar.construct 3 "S" ccRules true).isSome = true := by rfl
  have hc : (gotoSpec ((Grammar.construct 3 "S" ccRules true).get hs) 2
      [⟨"S", 0, 0, ENDMARKER⟩] "C").isSome = true := by rfl
  refine ⟨(Grammar.construct 3 "S" ccRules true).get hs,
    ((gotoSpec ((Grammar.construct 3 "S" ccRules true).get hs) 2
      [⟨"S", 0, 0, ENDMARKER⟩] "C").get hc).1,
    (Option.some_get hs).symm, rfl, by rfl, by rfl, by decide⟩

/-- C14 as amended: for every item set `I` and every symbol `X`, `GoTo(I, X)`
is the empty item set; in particular `GoTo` over `C` of the closure of the
initial item of the augmented grammar `S -> C C`, `C -> c C | d` is empty. -/
theorem c14_goto_is_empty :
    (∀ (I : List Item) (X : String), GoTo I X = []) ∧ GoTo [initialItem] "C" = [] :=
  ⟨fun _ _ => rfl, rfl⟩

/-! ## The constructor checks nothing -/

theorem init_present (start : String) (rules : StrMap RuleList) (aug : Bool) :
    ∀ k ∈ (Grammar.init start rules aug).nonterminals,
      (mapFind k (Grammar.init start rules aug).rules).isSome = true := by
  intro k hk
  rw [init_rules]
  rcases (mem_init_nonterminals start rules aug k).mp hk with ⟨ha, h⟩ | ⟨p, hp, h⟩
  · rw [ha, h]
    simp only [if_true]
    rw [mapFind_mapSet, if_pos rfl]
    rfl
  · subst h
    have hp' := mapFind_isSome_of_mem p.1 p.2 rules hp
    cases aug
    · exact hp'
    · simp only [if_true]
      rw [mapFind_mapSet]
      split
      · rfl
      · exact hp'

theorem construct_rules (fuel : Nat) (start : String) (rules : StrMap RuleList) (aug : Bool)
    (g : Grammar) (hc : Grammar.construct fuel start rules aug = some g) :
    g.rules = (Grammar.init start rules aug).rules ∧
      g.nonterminals = (Grammar.init start rules aug).nonterminals ∧
      g.terminals = (Grammar.init start rules aug).terminals := by
  obtain ⟨g₁, g₂, h₁, h₂, hg⟩ := construct_chain fuel start rules aug g hc
  have p₁ := firstLoop_phase fuel _ g₁ h₁
  have p₂ := followLoop_phase fuel _ g₂ h₂
  have n₁ : g₁.nonterminals = (Grammar.init start rules aug).nonterminals := p₁.nonterminals
  have r₁ : g₁.rules = (Grammar.init start rules aug).rules :=
    p₁.rules (init_present start rules aug)
  have r₂ : g₂.rules = g₁.rules := p₂.rules (by
    intro k hk
    dsimp only at hk ⊢
    rw [r₁]
    rw [n₁] at hk
    exact init_present start rules aug k hk)
  have n₂ : g₂.nonterminals = g₁.nonterminals := p₂.nonterminals
  have t₂ : g₂.terminals = g₁.terminals := p₂.terminals
  have t₁ : g₁.terminals = (Grammar.init start rules aug).terminals := p₁.terminals
  subst hg
  exact ⟨r₂.trans r₁, n₂.trans n₁, t₂.trans t₁⟩

/-- C15, the claim fails: for the grammar `S -> a EPSILON`, whose body holds
EPSILON together with another symbol, construction returns a grammar. -/
theorem c15_mixed_epsilon_body_accepted :
    (∃ rhs ∈ mapGet "S" [] mixedRules, EPSILON ∈ rhs ∧ "a" ∈ rhs) ∧
      (Grammar.construct 1 "S" mixedRules false).isSome = true := by
  decide

/-- C15 as amended: construction has no grammar-error outcome and does not
look for EPSILON in the bodies: whenever it returns a grammar, the production
map of the grammar is the supplied one, with the production of AUGMENTED_START
added when augmenting, so a body that holds EPSILON together with other
symbols is kept as supplied; for `S -> a EPSILON` construction returns a
grammar that keeps the body and counts EPSILON among its terminals. -/
theorem c15_bodies_kept_unchecked :
    (∀ (fuel : Nat) (start : String) (rules : StrMap RuleList) (aug : Bool) (g : Grammar),
        Grammar.construct fuel start rules aug = some g →
        g.rules = if aug then mapSet AUGMENTED_START [[start]] rules else rules) ∧
    (∀ k, ∃ g, Grammar.construct (1 + k) "S" mixedRules false = some g ∧
        mapFind "S" g.rules = some [["a", EPSILON]] ∧ EPSILON ∈ g.terminals) := by
  constructor
  · intro fuel start rules aug g hc
    rw [(construct_rules fuel start rules aug g hc).1, init_rules]
  · intro k
    have hs : (Grammar.construct 1 "S" mixedRules false).isSome = true := by rfl
    have ht : ((Grammar.construct 1 "S" mixedRules false).get hs).terminals = [EPSILON, "a"] := by
      rfl
    exact ⟨(Grammar.construct 1 "S" mixedRules false).get hs,
      construct_mono 1 k _ _ _ _ (Option.some_get hs).symm, by rfl, by rw [ht]; simp⟩

/-- C15 as amended, at the augmented grammar `S -> C C`, `C -> c C | d`:
construction returns, and the production map is the supplied one with
AUGMENTED_START -> S added. -/
theorem c15_bodies_kept_unchecked_witness :
    ∃ g, Grammar.construct 3 "S" ccRules true = some g ∧
      g.rules = if true then mapSet AUGMENTED_START [["S"]] ccRules else ccRules := by
  have hs : (Grammar.construct 3 "S" ccRules true).isSome = true := by rfl
  exact ⟨_, (Option.some_get hs).symm,
    c15_bodies_kept_unchecked.1 3 "S" ccRules true _ (Option.some_get hs).symm⟩

/-! ## A grammar on which `ComputeFirst` does not stop -/

theorem cycle_firstLoop :
    ∀ fuel, firstLoop fuel (cycleState cycleFirstOdd) = none ∧
      firstLoop fuel (cycleState cycleFirstEven) = none
  | 0 => ⟨rfl, rfl⟩
  | fuel + 1 => by
    obtain ⟨h₁, h₂⟩ := cycle_firstLoop fuel
    have p₁ : firstPass (cycleState cycleFirstOdd).nonterminals (cycleState cycleFirstOdd) 0 =
        some (cycleState cycleFirstEven, 1) := by rfl
    have p₂ : firstPass (cycleState cycleFirstEven).nonterminals (cycleState cycleFirstEven) 0 =
        some (cycleState cycleFirstOdd, -1) := by rfl
    constructor
    · unfold firstLoop
      rw [p₁]
      exact h₂
    · unfold firstLoop
      rw [p₂]
      exact h₁

/-- C11, the code on a failing input: for the grammar `A -> B`,
`B -> EPSILON | C`, `C -> A` (all bodies non-empty) the passes of
`ComputeFirst` report `added = 1, 1, -1, 1, -1, ...`: from the second pass
on the FIRST table alternates between two tables, the call of
`ComputeFirstStep` on `A` in every odd pass returns `-1` (EPSILON is erased
from `first[A]`), and no bound on the number of passes lets `ComputeFirst` or
the constructor return. -/
theorem c11_first_loop_never_stops :
    firstPass ["A", "B", "C"]
        { Grammar.init "A" cycleRules false with
          first := seedFirst (Grammar.init "A" cycleRules false).terminals
            (Grammar.init "A" cycleRules false).first } 0
        = some (cycleState cycleFirstOdd, 1) ∧
      firstPass ["A", "B", "C"] (cycleState cycleFirstOdd) 0
        = some (cycleState cycleFirstEven, 1) ∧
      firstPass ["A", "B", "C"] (cycleState cycleFirstEven) 0
        = some (cycleState cycleFirstOdd, -1) ∧
      ((cycleState cycleFirstEven).ComputeFirstStep "A").map Prod.snd = some (-1) ∧
      (∀ fuel, (Grammar.init "A" cycleRules false).ComputeFirst fuel = none) ∧
      (∀ fuel, Grammar.construct fuel "A" cycleRules false = none) := by
  have h₀ : firstPass (Grammar.init "A" cycleRules false).nonterminals
      { Grammar.init "A" cycleRules false with
        first := seedFirst (Grammar.init "A" cycleRules false).terminals
          (Grammar.init "A" cycleRules false).first } 0
      = some (cycleState cycleFirstOdd, 1) := by rfl
  have hfirst : ∀ fuel, (Grammar.init "A" cycleRules false).ComputeFirst fuel = none := by
    intro fuel
    cases fuel with
    | zero => rfl
    | succ n =>
      unfold Grammar.ComputeFirst firstLoop
      rw [h₀]
      exact (cycle_firstLoop n).1
  refine ⟨by rfl, by rfl, by rfl, by rfl, hfirst, ?_⟩
  intro fuel
  unfold Grammar.construct
  rw [hfirst fuel]

/-! ## Grammars without an EPSILON body: `ComputeFirst` stops after one pass -/

theorem nodup_setPlace (a : String) :
    ∀ s : StrSet, a ∉ s → s.Nodup → (setPlace a s).Nodup
  | [], _, _ => by simp [setPlace]
  | b :: t, ha, hs => by
    have hab : a ≠ b := fun h => ha (by simp [h])
    have hat : a ∉ t := fun h => ha (List.mem_cons_of_mem b h)
    unfold setPlace
    split
    · exact List.nodup_cons.mpr ⟨ha, hs⟩
    · have hs' := List.nodup_cons.mp hs
      refine List.nodup_cons.mpr ⟨?_, nodup_setPlace a t hat hs'.2⟩
      intro hb
      rcases (mem_setPlace a b t).mp hb with h | h
      · exact hab h.symm
      · exact hs'.1 h

theorem nodup_setInsert (a : String) (s : StrSet) (hs : s.Nodup) : (setInsert a s).Nodup := by
  unfold setInsert
  split
  · exact hs
  · rename_i ha
    exact nodup_setPlace a s ha hs

theorem nodup_collectSymbols_fst (rules : StrMap RuleList) :
    ∀ N S : StrSet, N.Nodup → (collectSymbols rules (N, S)).1.Nodup := by
  induction rules with
  | nil => intro N S h; exact h
  | cons q t ih =>
    intro N S h
    unfold collectSymbols
    exact ih _ _ (nodup_setInsert q.1 N h)

theorem nodup_init_nonterminals (start : String) (rules : StrMap RuleList) (aug : Bool) :
    (Grammar.init start rules aug).nonterminals.Nodup := by
  have h := nodup_collectSymbols_fst rules [] [] List.nodup_nil
  unfold Grammar.init
  cases aug
  · exact h
  · exact nodup_setInsert _ _ h

theorem equalsEpsilon_false (rhs : RuleBody) (h : rhs ≠ [EPSILON]) :
    equalsEpsilon rhs = false := by
  unfold equalsEpsilon
  split
  · rename_i x
    have : x ≠ EPSILON := fun hx => h (by rw [hx])
    simpa using this
  · rfl

theorem ComputeFirstStep_init (g : Grammar) (A : String)
    (hb : ∀ rhs ∈ mapGet A [] g.rules, rhs ≠ [EPSILON]) (hf : mapFind A g.first = none) :
    g.ComputeFirstStep A =
      some ({ g with rules := mapTouch A [] g.rules, first := mapSet A [] g.first }, 0) := by
  have hany : (mapGet A [] (mapTouch A [] g.rules)).any equalsEpsilon = false := by
    rw [mapGet_mapTouch, List.any_eq_false]
    intro rhs hrhs
    rw [equalsEpsilon_false rhs (hb rhs hrhs)]
    simp
  unfold Grammar.ComputeFirstStep
  simp [hf, hany]

theorem firstPass_init :
    ∀ (l : List String) (g : Grammar) (added : Int), l.Nodup →
      (∀ nt ∈ l, mapFind nt g.first = none) →
      (∀ nt ∈ l, ∀ rhs ∈ mapGet nt [] g.rules, rhs ≠ [EPSILON]) →
      ∃ g', firstPass l g added = some (g', added) ∧
        (∀ nt ∈ l, mapFind nt g'.first = some []) ∧
        (∀ k, k ∉ l → mapFind k g'.first = mapFind k g.first)
  | [], g, added, _, _, _ => ⟨g, rfl, by simp, fun _ _ => rfl⟩
  | nt :: rest, g, added, hl, hf, hb => by
    have hl' := List.nodup_cons.mp hl
    have hstep := ComputeFirstStep_init g nt (hb nt (by simp)) (hf nt (by simp))
    obtain ⟨g', hp, hnew, hold⟩ := firstPass_init rest
      { g with rules := mapTouch nt [] g.rules, first := mapSet nt [] g.first } (added + 0)
      hl'.2
      (by
        intro k hk
        dsimp only
        have hkn : k ≠ nt := by
          rintro rfl
          exact hl'.1 hk
        rw [mapFind_mapSet, if_neg hkn]
        exact hf k (List.mem_cons_of_mem nt hk))
      (by
        intro k hk rhs hrhs
        dsimp only at hrhs
        rw [mapGet_mapTouch] at hrhs
        exact hb k (List.mem_cons_of_mem nt hk) rhs hrhs)
    refine ⟨g', ?_, ?_, ?_⟩
    · unfold firstPass
      rw [hstep]
      dsimp only
      rw [hp, add_zero]
    · intro k hk
      rcases List.mem_cons.mp hk with h | h
      · subst h
        rw [hold k hl'.1]
        dsimp only
        rw [mapFind_mapSet, if_pos rfl]
      · exact hnew k h
    · intro k hk
      have hk₁ : k ≠ nt := fun h => hk (by simp [h])
      have hk₂ : k ∉ rest := fun h => hk (List.mem_cons_of_mem nt h)
      rw [hold k hk₂]
      dsimp only
      rw [mapFind_mapSet, if_neg hk₁]

/-- C19: for every production map without the reserved names and without a
body that is the single symbol EPSILON (the start symbol not being EPSILON
when the grammar is augmented), every call of `ComputeFirstStep` that creates
the entry of its symbol returns 0, the first pass of `ComputeFirst` reports
`added = 0`, so `ComputeFirst` returns after that pass with any bound of at
least one pass, and it leaves `first[A] = {}` for every nonterminal `A`. -/
theorem c19_first_stops_after_one_pass (start : String) (rules : StrMap RuleList) (aug : Bool)
    (hres : ReservedFree rules) (hne : ∀ p ∈ rules, ∀ rhs ∈ p.2, rhs ≠ [EPSILON])
    (hstart : aug = true → start ≠ EPSILON) :
    (∀ (g : Grammar) (A : String), g.rules = (Grammar.init start rules aug).rules →
        mapFind A g.first = none → (g.ComputeFirstStep A).map Prod.snd = some 0) ∧
      ∃ g₁,
        firstPass (Grammar.init start rules aug).nonterminals
          { Grammar.init start rules aug with
            first := seedFirst (Grammar.init start rules aug).terminals
              (Grammar.init start rules aug).first } 0 = some (g₁, 0) ∧
        (∀ k, (Grammar.init start rules aug).ComputeFirst (1 + k) = some g₁) ∧
        ∀ A ∈ g₁.nonterminals, mapFind A g₁.first = some [] := by
  have hbodies : ∀ (A : String), ∀ rhs ∈ mapGet A [] (Grammar.init start rules aug).rules,
      rhs ≠ [EPSILON] := by
    intro A rhs hrhs
    unfold mapGet at hrhs
    cases hf : mapFind A (Grammar.init start rules aug).rules with
    | none => simp [hf] at hrhs
    | some rl =>
      rw [hf] at hrhs
      have hmem := mapFind_mem A rl _ hf
      rw [init_rules] at hmem
      cases aug with
      | false => exact hne _ hmem rhs hrhs
      | true =>
        rcases mem_mapSet _ _ _ _ hmem with h | h
        · have e : rl = [[start]] := (Prod.mk.inj h).2
          rw [e] at hrhs
          have e' : rhs = [start] := by simpa using hrhs
          rw [e']
          intro hc
          exact hstart rfl (by simpa using hc)
        · exact hne _ h rhs hrhs
  constructor
  · intro g A hr hf
    rw [ComputeFirstStep_init g A (by rw [hr]; exact hbodies A) hf]
    rfl
  · have hseed : ∀ nt ∈ (Grammar.init start rules aug).nonterminals,
        mapFind nt (seedFirst (Grammar.init start rules aug).terminals
          (Grammar.init start rules aug).first) = none := by
      intro nt hnt
      rw [mapFind_seedFirst, init_first]
      split
      · rename_i ht
        exact absurd hnt (init_disjoint start rules aug hres nt ht)
      · rfl
    obtain ⟨g₁, hp, hnew, -⟩ := firstPass_init (Grammar.init start rules aug).nonterminals
      { Grammar.init start rules aug with
        first := seedFirst (Grammar.init start rules aug).terminals
          (Grammar.init start rules aug).first } 0
      (nodup_init_nonterminals start rules aug) hseed (fun nt _ => hbodies nt)
    have hn : g₁.nonterminals = (Grammar.init start rules aug).nonterminals :=
      (firstPass_phase _ _ g₁ 0 0 hp).nonterminals
    refine ⟨g₁, hp, ?_, ?_⟩
    · intro k
      have e : 1 + k = k + 1 := by omega
      rw [e]
      unfold Grammar.ComputeFirst firstLoop
      dsimp only
      rw [hp]
      rfl
    · intro A hA
      rw [hn] at hA
      exact hnew A hA

/-- C19 at the grammar `E -> E + T | T`, `T -> T * F | F`, `F -> ( E ) | id`,
augmented: no reserved name, no EPSILON body, and `ComputeFirst` returns after
one pass with `first[A] = {}` for every nonterminal. -/
theorem c19_first_stops_after_one_pass_witness :
    ReservedFree exprRules ∧
      ∃ g₁, (Grammar.init "E" exprRules true).ComputeFirst 1 = some g₁ ∧
        ∀ A ∈ g₁.nonterminals, mapFind A g₁.first = some [] := by
  have hres : ReservedFree exprRules := by
    unfold ReservedFree
    decide
  obtain ⟨g₁, -, h₁, h₂⟩ := (c19_first_stops_after_one_pass "E" exprRules true hres
    (by decide) (by decide)).2
  exact ⟨hres, g₁, h₁ 0, h₂⟩

/-! ## Counting what `ComputeFollowStep` inserts -/

theorem setInsert_length (a : String) (s : StrSet) :
    (setInsert a s).length = if a ∈ s then s.length else s.length + 1 := by
  have hp : ∀ t : StrSet, (setPlace a t).length = t.length + 1 := by
    intro t
    induction t with
    | nil => rfl
    | cons b t ih =>
      unfold setPlace
      split
      · rfl
      · simp [ih]
  unfold setInsert
  split
  · rfl
  · exact hp s

theorem setInsertRange_of_subset :
    ∀ (src dst : StrSet), (∀ e ∈ src, e ∈ dst) → setInsertRange src dst = dst
  | [], _, _ => rfl
  | a :: t, dst, h => by
    have ha : a ∈ dst := h a (by simp)
    have e : setInsertRange (a :: t) dst = setInsertRange t (setInsert a dst) := rfl
    rw [e]
    have e' : setInsert a dst = dst := by simp [setInsert, ha]
    rw [e']
    exact setInsertRange_of_subset t dst (fun e he => h e (List.mem_cons_of_mem a he))

theorem setInsertRange_length_le :
    ∀ (src dst : StrSet), dst.length ≤ (setInsertRange src dst).length
  | [], _ => le_refl _
  | a :: t, dst => by
    have e : setInsertRange (a :: t) dst = setInsertRange t (setInsert a dst) := rfl
    rw [e]
    refine le_trans ?_ (setInsertRange_length_le t (setInsert a dst))
    rw [setInsert_length]
    split <;> omega

theorem setInsertRange_same_length :
    ∀ (src dst : StrSet), (setInsertRange src dst).length = dst.length →
      ∀ e ∈ src, e ∈ dst
  | [], _, _ => by simp
  | a :: t, dst, h => by
    have e : setInsertRange (a :: t) dst = setInsertRange t (setInsert a dst) := rfl
    rw [e] at h
    have h₁ := setInsertRange_length_le t (setInsert a dst)
    have h₂ := setInsert_length a dst
    have ha : a ∈ dst := by
      by_contra hn
      rw [if_neg hn] at h₂
      omega
    have e' : setInsert a dst = dst := by simp [setInsert, ha]
    rw [e'] at h
    intro x hx
    rcases List.mem_cons.mp hx with hx | hx
    · rw [hx]
      exact ha
    · exact setInsertRange_same_length t dst h x hx

theorem setInsertRange_longer (src dst : StrSet)
    (h : dst.length < (setInsertRange src dst).length) : ∃ e ∈ src, e ∉ dst := by
  by_contra hn
  have hsub : ∀ e ∈ src, e ∈ dst := by
    intro e he
    by_contra hd
    exact hn ⟨e, he, hd⟩
  rw [setInsertRange_of_subset src dst hsub] at h
  exact lt_irrefl _ h

theorem mapGet_mapSet {V : Type} (k k' : String) (d v : V) (m : StrMap V) :
    mapGet k' d (mapSet k v m) = if k' = k then v else mapGet k' d m := by
  unfold mapGet
  rw [mapFind_mapSet]
  split <;> rfl

theorem grows_mapGet {m m' : StrMap StrSet}
    (h : ∀ k s, mapFind k m = some s → ∃ s', mapFind k m' = some s' ∧ ∀ x ∈ s, x ∈ s')
    (k e : String) (he : e ∈ mapGet k [] m) : e ∈ mapGet k [] m' := by
  unfold mapGet at he ⊢
  cases hf : mapFind k m with
  | none => simp [hf] at he
  | some s =>
    obtain ⟨s', hs', hsub⟩ := h k s hf
    rw [hf] at he
    rw [hs']
    exact hsub e he

theorem followNew_left {g g' g'' : Grammar} (h : FollowNew g g')
    (hg : ∀ k s, mapFind k g'.follow = some s →
      ∃ s', mapFind k g''.follow = some s' ∧ ∀ x ∈ s, x ∈ s') : FollowNew g g'' := by
  obtain ⟨k, hk, h | ⟨e, he, hne⟩⟩ := h
  · refine ⟨k, hk, Or.inl ⟨h.1, ?_⟩⟩
    obtain ⟨s, hs⟩ := Option.isSome_iff_exists.mp h.2
    obtain ⟨s', hs', -⟩ := hg k s hs
    rw [hs']
    rfl
  · exact ⟨k, hk, Or.inr ⟨e, grows_mapGet hg k e he, hne⟩⟩

theorem followNew_right {g g' g'' : Grammar} (h : FollowNew g' g'')
    (hn : g'.nonterminals = g.nonterminals)
    (hg : ∀ k s, mapFind k g.follow = some s →
      ∃ s', mapFind k g'.follow = some s' ∧ ∀ x ∈ s, x ∈ s') : FollowNew g g'' := by
  obtain ⟨k, hk, h | ⟨e, he, hne⟩⟩ := h
  · refine ⟨k, hn ▸ hk, Or.inl ⟨?_, h.2⟩⟩
    cases hf : mapFind k g.follow with
    | none => rfl
    | some s =>
      obtain ⟨s', hs', -⟩ := hg k s hf
      rw [h.1] at hs'
      cases hs'
  · exact ⟨k, hn ▸ hk, Or.inr ⟨e, he, fun hc => hne (grows_mapGet hg k e hc)⟩⟩

theorem followCount_refl (g : Grammar) (added : Int) : FollowCount g g added added :=
  ⟨le_refl _, fun h => absurd h (lt_irrefl _), fun _ _ _ h => h⟩

theorem followCount_trans {g g' g'' : Grammar} {a a' a'' : Int}
    (h₁ : FollowCount g g' a a') (h₂ : FollowCount g' g'' a' a'')
    (hn : g'.nonterminals = g.nonterminals)
    (hf : FirstEvolves (fun _ => True) g.first g'.first)
    (hg₁ : ∀ k s, mapFind k g.follow = some s →
      ∃ s', mapFind k g'.follow = some s' ∧ ∀ x ∈ s, x ∈ s')
    (hg₂ : ∀ k s, mapFind k g'.follow = some s →
      ∃ s', mapFind k g''.follow = some s' ∧ ∀ x ∈ s, x ∈ s') : FollowCount g g'' a a'' := by
  refine ⟨le_trans h₁.le h₂.le, ?_, ?_⟩
  · intro hlt
    by_cases h : a < a'
    · exact followNew_left (h₁.new h) hg₂
    · have : a' < a'' := by
        have := h₁.le
        omega
      exact followNew_right (h₂.new this) hn hg₁
  · intro U hU hfw hw
    exact h₂.within U hU (hf.within U hU hfw) (h₁.within U hU hfw hw)

theorem followStepBody_cons (symbol x : String) (beta : List String) (g : Grammar)
    (added : Int) :
    followStepBody symbol (x :: beta) g added =
      if setContains x g.nonterminals then
        followStepBody symbol beta
          { (Grammar.ComputeFirstWord { g with follow := mapTouch x [] g.follow } beta).1 with
            follow := followVisitTable symbol x
              (Grammar.ComputeFirstWord { g with follow := mapTouch x [] g.follow } beta).2
              beta.isEmpty
              (setContains EPSILON
                (Grammar.ComputeFirstWord { g with follow := mapTouch x [] g.follow } beta).2)
              (Grammar.ComputeFirstWord { g with follow := mapTouch x [] g.follow } beta).1.follow }
          (added +
            (((mapGet x [] (followVisitTable symbol x
              (Grammar.ComputeFirstWord { g with follow := mapTouch x [] g.follow } beta).2
              beta.isEmpty
              (setContains EPSILON
                (Grammar.ComputeFirstWord { g with follow := mapTouch x [] g.follow } beta).2)
              (Grammar.ComputeFirstWord { g with follow := mapTouch x [] g.follow }
                beta).1.follow)).length : Int) -
              ((mapGet x [] (mapTouch x [] g.follow)).length : Int)))
      else followStepBody symbol beta g added := by
  rfl

theorem followVisitTable_get_x (symbol x : String) (firstBeta : StrSet) (isLast eps : Bool)
    (m : StrMap StrSet) :
    mapGet x [] (followVisitTable symbol x firstBeta isLast eps m) =
      if (isLast || eps) = true then
        setInsertRange
          (if symbol = x then
            (if isLast = true then mapGet x [] m else setInsertRange firstBeta (mapGet x [] m))
          else mapGet symbol [] m)
          (if isLast = true then mapGet x [] m else setInsertRange firstBeta (mapGet x [] m))
      else setInsertRange firstBeta (mapGet x [] m) := by
  unfold followVisitTable
  cases isLast <;> cases eps <;>
    simp only [Bool.not_false, Bool.not_true, Bool.or_false, Bool.or_true, Bool.false_or,
      Bool.true_or, if_true, if_false, Bool.false_eq_true, mapGet_mapSet, mapGet_mapTouch]
  all_goals first
    | rfl
    | (by_cases h : symbol = x
       · subst h
         simp
       · simp [h])

theorem followVisitTable_get_other (symbol x k : String) (firstBeta : StrSet)
    (isLast eps : Bool) (m : StrMap StrSet) (hk : k ≠ x) :
    mapGet k [] (followVisitTable symbol x firstBeta isLast eps m) = mapGet k [] m := by
  unfold followVisitTable
  cases isLast <;> cases eps <;>
    simp only [Bool.not_false, Bool.not_true, Bool.or_false, Bool.or_true, Bool.false_or,
      Bool.true_or, if_true, if_false, Bool.false_eq_true, mapGet_mapSet, mapGet_mapTouch,
      if_neg hk]

theorem followVisitTable_length (symbol x : String) (firstBeta : StrSet) (isLast eps : Bool)
    (m : StrMap StrSet) :
    (mapGet x [] m).length ≤ (mapGet x [] (followVisitTable symbol x firstBeta isLast eps m)).length ∧
      ((mapGet x [] (followVisitTable symbol x firstBeta isLast eps m)).length =
          (mapGet x [] m).length →
        mapGet x [] (followVisitTable symbol x firstBeta isLast eps m) = mapGet x [] m ∧
          (isLast = false → ∀ e ∈ firstBeta, e ∈ mapGet x [] m) ∧
          ((isLast || eps) = true → ∀ e ∈ mapGet symbol [] m, e ∈ mapGet x [] m)) := by
  rw [followVisitTable_get_x]
  cases isLast <;> cases eps <;>
    simp only [Bool.or_false, Bool.or_true, Bool.false_or, Bool.true_or, if_true, if_false,
      Bool.false_eq_true, forall_true_left, false_implies, true_and, and_true]
  · -- not last, no EPSILON
    refine ⟨setInsertRange_length_le _ _, fun h => ?_⟩
    have hsub := setInsertRange_same_length firstBeta _ h
    exact ⟨setInsertRange_of_subset _ _ hsub, hsub⟩
  · -- not last, EPSILON
    have h₁ := setInsertRange_length_le firstBeta (mapGet x [] m)
    have h₂ := setInsertRange_length_le
      (if symbol = x then setInsertRange firstBeta (mapGet x [] m) else mapGet symbol [] m)
      (setInsertRange firstBeta (mapGet x [] m))
    refine ⟨le_trans h₁ h₂, fun h => ?_⟩
    have e₁ : (setInsertRange firstBeta (mapGet x [] m)).length = (mapGet x [] m).length := by
      omega
    have hsub₁ := setInsertRange_same_length firstBeta _ e₁
    have e₁' := setInsertRange_of_subset _ _ hsub₁
    rw [e₁'] at h ⊢
    have hsub₂ := setInsertRange_same_length _ _ h
    refine ⟨setInsertRange_of_subset _ _ hsub₂, hsub₁, ?_⟩
    intro e he
    by_cases hs : symbol = x
    · rw [hs] at he
      exact he
    · rw [if_neg hs] at hsub₂
      exact hsub₂ e he
  all_goals
    refine ⟨setInsertRange_length_le _ _, fun h => ?_⟩
    have hsub₂ := setInsertRange_same_length _ _ h
    refine ⟨setInsertRange_of_subset _ _ hsub₂, fun hc => absurd hc (by decide), ?_⟩
    intro e he
    by_cases hs : symbol = x
    · rw [hs] at he
      exact he
    · rw [if_neg hs] at hsub₂
      exact hsub₂ e he

theorem followVisitTable_new (symbol x : String) (firstBeta : StrSet) (isLast eps : Bool)
    (m : StrMap StrSet)
    (h : (mapGet x [] m).length <
      (mapGet x [] (followVisitTable symbol x firstBeta isLast eps m)).length) :
    ∃ e, e ∈ mapGet x [] (followVisitTable symbol x firstBeta isLast eps m) ∧
      e ∉ mapGet x [] m := by
  by_contra hn
  have hsub : ∀ e ∈ mapGet x [] (followVisitTable symbol x firstBeta isLast eps m),
      e ∈ mapGet x [] m := by
    intro e he
    by_contra hd
    exact hn ⟨e, he, hd⟩
  rw [followVisitTable_get_x] at h hsub
  have key : ∀ src dst : StrSet, (∀ e ∈ setInsertRange src dst, e ∈ dst) →
      setInsertRange src dst = dst := fun src dst hs =>
    setInsertRange_of_subset src dst
      (fun e he => hs e ((mem_setInsertRange src dst e).mpr (Or.inl he)))
  cases isLast <;> cases eps <;>
    simp only [Bool.or_false, Bool.or_true, Bool.false_or, Bool.true_or, if_true, if_false,
      Bool.false_eq_true] at h hsub
  · rw [key _ _ hsub] at h
    exact lt_irrefl _ h
  · have e₁ : setInsertRange firstBeta (mapGet x [] m) = mapGet x [] m :=
      key _ _ (fun e he => hsub e ((mem_setInsertRange _ _ e).mpr (Or.inr he)))
    rw [e₁] at h hsub
    rw [key _ _ hsub] at h
    exact lt_irrefl _ h
  · rw [key _ _ hsub] at h
    exact lt_irrefl _ h
  · rw [key _ _ hsub] at h
    exact lt_irrefl _ h

theorem followVisitTable_within (U : String → Prop) (symbol x : String) (firstBeta : StrSet)
    (isLast eps : Bool) (m : StrMap StrSet) (hm : TableWithin U m)
    (hb : ∀ e ∈ firstBeta, U e) :
    TableWithin U (followVisitTable symbol x firstBeta isLast eps m) := by
  have union : ∀ (m' : StrMap StrSet) (src : StrSet), TableWithin U m' → (∀ e ∈ src, U e) →
      TableWithin U (mapSet x (setInsertRange src (mapGet x [] m')) m') := by
    intro m' src hm' hsrc
    refine tableWithin_mapSet U m' x _ hm' ?_
    intro e he
    rcases (mem_setInsertRange _ _ e).mp he with he | he
    · exact hsrc e he
    · exact tableWithin_mapGet U m' x hm' e he
  have h₁ : TableWithin U
      (if (!isLast) = true then mapSet x (setInsertRange firstBeta (mapGet x [] m)) m
        else m) := by
    split
    · exact union m firstBeta hm hb
    · exact hm
  unfold followVisitTable
  dsimp only
  split
  · exact union _ _ (tableWithin_mapTouch U _ symbol h₁)
      (tableWithin_mapGet U _ symbol (tableWithin_mapTouch U _ symbol h₁))
  · exact h₁

theorem followVisitTable_evolves (T : String → Prop) (symbol x : String) (firstBeta : StrSet)
    (isLast eps : Bool) (m : StrMap StrSet) (hx : T x) :
    FollowEvolves T m (followVisitTable symbol x firstBeta isLast eps m) := by
  have h₁ : FollowEvolves T m
      (if (!isLast) = true then mapSet x (setInsertRange firstBeta (mapGet x [] m)) m
        else m) := by
    split
    · exact FollowEvolves.followUnion T m x firstBeta hx
    · exact FollowEvolves.followRefl T m
  unfold followVisitTable
  dsimp only
  split
  · exact h₁.followTrans ((FollowEvolves.followTouch T _ symbol).followTrans
      (FollowEvolves.followUnion T _ x _ hx))
  · exact h₁

theorem firstWordWhile_within (U : String → Prop) (word : List String) :
    ∀ (fuel index : Nat) (current : String) (first : StrMap StrSet) (wordFirst : StrSet),
      TableWithin U first → (∀ e ∈ wordFirst, U e) →
        TableWithin U (firstWordWhile word fuel index current first wordFirst).2.2.1 ∧
          ∀ e ∈ (firstWordWhile word fuel index current first wordFirst).2.2.2, U e
  | 0, _, _, _, _, hf, hw => ⟨hf, hw⟩
  | fuel + 1, index, current, first, wordFirst, hf, hw => by
    unfold firstWordWhile
    dsimp only
    split
    · refine firstWordWhile_within U word fuel _ _ _ _
        (tableWithin_mapTouch U _ _ (tableWithin_mapTouch U _ _ hf)) ?_
      intro e he
      rcases (mem_setInsertRange _ _ e).mp he with he | he
      · exact tableWithin_mapGet U _ _
          (tableWithin_mapTouch U _ _ (tableWithin_mapTouch U _ _ hf)) e he
      · exact hw e he
    · exact ⟨tableWithin_mapTouch U _ _ hf, hw⟩

theorem ComputeFirstWord_within (U : String → Prop) (g : Grammar) (word : List String)
    (hf : TableWithin U g.first) : ∀ e ∈ (g.ComputeFirstWord word).2, U e := by
  unfold Grammar.ComputeFirstWord
  split
  · intro e he
    simp at he
  · rename_i current rest
    dsimp only
    have h₀ := tableWithin_mapTouch U g.first current hf
    obtain ⟨hw₁, hw₂⟩ := firstWordWhile_within U (current :: rest) (current :: rest).length 0
      current (mapTouch current [] g.first)
      (setInsertRange (mapGet current [] (mapTouch current [] g.first)) []) h₀
      (by
        intro e he
        rcases (mem_setInsertRange _ _ e).mp he with he | he
        · exact tableWithin_mapGet U _ _ h₀ e he
        · simp at he)
    split
    · intro e he
      rcases (mem_setInsertRange _ _ e).mp he with he | he
      · exact tableWithin_mapGet U _ _ hw₁ e he
      · exact hw₂ e he
    · intro e he
      exact hw₂ e ((mem_setErase _ _ _).mp he).1
theorem followStepBody_count (symbol : String) :
    ∀ (l : List String) (g : Grammar) (added : Int),
      FollowCount g (followStepBody symbol l g added).1 added (followStepBody symbol l g added).2
  | [], g, added => followCount_refl g added
  | x :: beta, g, added => by
    rw [followStepBody_cons]
    split
    · rename_i hx
      have hxn : x ∈ g.nonterminals := (setContains_iff x g.nonterminals).mp hx
      obtain ⟨first', he, hf⟩ :=
        ComputeFirstWord_fst { g with follow := mapTouch x [] g.follow } beta
      have hwithin := fun (U : String → Prop) (h : TableWithin U g.first) =>
        ComputeFirstWord_within U { g with follow := mapTouch x [] g.follow } beta h
      generalize Grammar.ComputeFirstWord { g with follow := mapTouch x [] g.follow } beta = r
        at he hwithin ⊢
      obtain ⟨g₁, firstBeta⟩ := r
      dsimp only at he hwithin ⊢
      subst he
      dsimp only
      have hlen := followVisitTable_length symbol x firstBeta beta.isEmpty
        (setContains EPSILON firstBeta) (mapTouch x [] g.follow)
      have hev : FollowEvolves (fun k => k = x) g.follow
          (followVisitTable symbol x firstBeta beta.isEmpty (setContains EPSILON firstBeta)
            (mapTouch x [] g.follow)) :=
        (FollowEvolves.followTouch _ g.follow x).followTrans
          (followVisitTable_evolves _ symbol x firstBeta _ _ _ rfl)
      refine followCount_trans ?_ (followStepBody_count symbol beta _ _) rfl hf hev.grows
        (followStepBody_phase symbol beta _ _).follow.grows
      refine ⟨by omega, ?_, ?_⟩
      · intro hlt
        obtain ⟨e, he₁, he₂⟩ := followVisitTable_new symbol x firstBeta beta.isEmpty
          (setContains EPSILON firstBeta) (mapTouch x [] g.follow) (by omega)
        rw [mapGet_mapTouch] at he₂
        exact ⟨x, hxn, Or.inr ⟨e, he₁, he₂⟩⟩
      · intro U _ hfw hw
        exact followVisitTable_within U symbol x firstBeta _ _ _
          (tableWithin_mapTouch U g.follow x hw) (hwithin U hfw)
    · exact followStepBody_count symbol beta g added

theorem followStepRules_count (symbol : String) :
    ∀ (rl : RuleList) (g : Grammar) (added : Int),
      FollowCount g (followStepRules symbol rl g added).1 added
        (followStepRules symbol rl g added).2
  | [], g, added => followCount_refl g added
  | rhs :: rest, g, added => by
    unfold followStepRules
    have h₁ := followStepBody_count symbol rhs g added
    have p₁ := followStepBody_phase symbol rhs g added
    generalize followStepBody symbol rhs g added = r at h₁ p₁ ⊢
    obtain ⟨g₁, added₁⟩ := r
    dsimp only at h₁ p₁ ⊢
    exact followCount_trans h₁ (followStepRules_count symbol rest g₁ added₁) p₁.nonterminals
      p₁.first p₁.follow.grows (followStepRules_phase symbol rest g₁ added₁).follow.grows

theorem ComputeFollowStep_count (g : Grammar) (symbol : String) (hs : symbol ∈ g.nonterminals) :
    FollowCount g (g.ComputeFollowStep symbol).1 0 (g.ComputeFollowStep symbol).2 := by
  unfold Grammar.ComputeFollowStep
  dsimp only
  split
  · rename_i hn
    have hnone : mapFind symbol g.follow = none := by simpa using hn
    refine ⟨Int.zero_le_ofNat 1, fun _ => ⟨symbol, hs, Or.inl ⟨hnone, ?_⟩⟩, ?_⟩
    · dsimp only
      rw [mapFind_mapSet, if_pos rfl]
      rfl
    · intro U _ _ hw
      exact tableWithin_mapSet U g.follow symbol [] hw (by simp)
  · have h := followStepRules_count symbol (mapGet symbol [] (mapTouch symbol [] g.rules))
      { g with rules := mapTouch symbol [] g.rules } 0
    exact ⟨h.le, h.new, h.within⟩

theorem followPass_count :
    ∀ (l : List String) (g : Grammar) (added : Int), (∀ nt ∈ l, nt ∈ g.nonterminals) →
      FollowCount g (followPass l g added).1 added (followPass l g added).2
  | [], g, added, _ => followCount_refl g added
  | nt :: rest, g, added, hl => by
    unfold followPass
    have h₁ := ComputeFollowStep_count g nt (hl nt (by simp))
    have p₁ := ComputeFollowStep_phase g nt
    generalize g.ComputeFollowStep nt = r at h₁ p₁ ⊢
    obtain ⟨g₁, n⟩ := r
    dsimp only at h₁ p₁ ⊢
    have h₁' : FollowCount g g₁ added (added + n) :=
      ⟨by have := h₁.le; omega, fun hlt => h₁.new (by omega), h₁.within⟩
    exact followCount_trans h₁'
      (followPass_count rest g₁ (added + n) (fun k hk => by
        rw [p₁.nonterminals]
        exact hl k (List.mem_cons_of_mem nt hk)))
      p₁.nonterminals p₁.first p₁.follow.grows
      (followPass_phase rest g₁ (added + n)).follow.grows
/-! ## The FOLLOW loop terminates -/

theorem followMarks_card_le (N U : List String) (m : StrMap StrSet) :
    (followMarks N U m).card ≤ (N.toFinset ×ˢ (insert none (U.toFinset.image some))).card :=
  Finset.card_filter_le _ _

theorem followMarks_mono (N U : List String) {m m' : StrMap StrSet}
    (h : ∀ k s, mapFind k m = some s → ∃ s', mapFind k m' = some s' ∧ ∀ x ∈ s, x ∈ s') :
    followMarks N U m ⊆ followMarks N U m' := by
  intro p hp
  unfold followMarks at hp ⊢
  rw [Finset.mem_filter] at hp ⊢
  refine ⟨hp.1, ?_⟩
  obtain ⟨k, o⟩ := p
  have hh := hp.2
  unfold followHas at hh ⊢
  cases o with
  | none =>
    dsimp only at hh ⊢
    obtain ⟨s, hs⟩ := Option.isSome_iff_exists.mp hh
    obtain ⟨s', hs', -⟩ := h k s hs
    rw [hs']
    rfl
  | some e =>
    dsimp only at hh ⊢
    exact decide_eq_true (grows_mapGet h k e (of_decide_eq_true hh))

theorem followMarks_lt (U : List String) {g g' : Grammar} (hnew : FollowNew g g')
    (hg : ∀ k s, mapFind k g.follow = some s →
      ∃ s', mapFind k g'.follow = some s' ∧ ∀ x ∈ s, x ∈ s')
    (hw : TableWithin (fun x => x ∈ U) g'.follow) :
    (followMarks g.nonterminals U g.follow).card <
      (followMarks g.nonterminals U g'.follow).card := by
  apply Finset.card_lt_card
  rw [Finset.ssubset_iff_of_subset (followMarks_mono g.nonterminals U hg)]
  obtain ⟨k, hk, h | ⟨e, he, hne⟩⟩ := hnew
  · refine ⟨(k, none), ?_, ?_⟩
    · unfold followMarks
      rw [Finset.mem_filter]
      refine ⟨?_, ?_⟩
      · simp [hk]
      · unfold followHas
        exact h.2
    · unfold followMarks
      rw [Finset.mem_filter]
      rintro ⟨-, hh⟩
      unfold followHas at hh
      dsimp only at hh
      rw [h.1] at hh
      cases hh
  · refine ⟨(k, some e), ?_, ?_⟩
    · unfold followMarks
      rw [Finset.mem_filter]
      refine ⟨?_, ?_⟩
      · have : e ∈ U := tableWithin_mapGet _ g'.follow k hw e he
        simp [hk, this]
      · unfold followHas
        exact decide_eq_true he
    · unfold followMarks
      rw [Finset.mem_filter]
      rintro ⟨-, hh⟩
      unfold followHas at hh
      exact hne (of_decide_eq_true hh)

theorem followLoop_returns (N U : List String) (hU : EPSILON ∈ U) :
    ∀ (d : Nat) (g : Grammar), g.nonterminals = N →
      TableWithin (fun x => x ∈ U) g.first → TableWithin (fun x => x ∈ U) g.follow →
      (N.toFinset ×ˢ (insert none (U.toFinset.image some))).card -
          (followMarks N U g.follow).card ≤ d →
      (followLoop (d + 1) g).isSome = true := by
  intro d
  induction d with
  | zero =>
    intro g hN hf hw hd
    unfold followLoop
    have hc := followPass_count g.nonterminals g 0 (fun _ h => h)
    have hp := followPass_phase g.nonterminals g 0
    generalize followPass g.nonterminals g 0 = r at hc hp ⊢
    obtain ⟨g', added⟩ := r
    dsimp only at hc hp ⊢
    split
    · rename_i hne
      exfalso
      have hpos : 0 < added := lt_of_le_of_ne hc.le (fun h => by simp [← h] at hne)
      have hlt := followMarks_lt U (hc.new hpos) hp.follow.grows (hc.within _ hU hf hw)
      have hle := followMarks_card_le N U g'.follow
      rw [hN] at hlt
      omega
    · rfl
  | succ d ih =>
    intro g hN hf hw hd
    unfold followLoop
    have hc := followPass_count g.nonterminals g 0 (fun _ h => h)
    have hp := followPass_phase g.nonterminals g 0
    generalize followPass g.nonterminals g 0 = r at hc hp ⊢
    obtain ⟨g', added⟩ := r
    dsimp only at hc hp ⊢
    split
    · rename_i hne
      have hpos : 0 < added := lt_of_le_of_ne hc.le (fun h => by simp [← h] at hne)
      have hlt := followMarks_lt U (hc.new hpos) hp.follow.grows (hc.within _ hU hf hw)
      have hle := followMarks_card_le N U g'.follow
      rw [hN] at hlt
      exact ih g' (hp.nonterminals.trans hN) (hp.first.within _ hU hf) (hc.within _ hU hf hw)
        (by omega)
    · rfl

theorem tableWithin_tableElems (m : StrMap StrSet) (U : List String)
    (h : ∀ x ∈ tableElems m, x ∈ U) : TableWithin (fun x => x ∈ U) m := by
  intro k s hs x hx
  apply h
  unfold tableElems
  exact List.mem_flatMap.mpr ⟨(k, s), mapFind_mem k s m hs, hx⟩

theorem followLoop_terminates (g : Grammar) : ∃ fuel, (followLoop fuel g).isSome = true := by
  refine ⟨_, followLoop_returns g.nonterminals
    (EPSILON :: (tableElems g.first ++ tableElems g.follow)) (by simp) _ g rfl
    (tableWithin_tableElems _ _ (fun x hx => by simp [hx]))
    (tableWithin_tableElems _ _ (fun x hx => by simp [hx])) (le_refl _)⟩

theorem ComputeFollowStep_nonneg (g : Grammar) (symbol : String) :
    0 ≤ (g.ComputeFollowStep symbol).2 := by
  unfold Grammar.ComputeFollowStep
  dsimp only
  split
  · exact Int.zero_le_ofNat 1
  · exact (followStepRules_count symbol _ _ 0).le

/-- C17: for every grammar object (every production map, every FIRST table),
each call of `ComputeFollowStep` returns a count that is not negative and
leaves every entry of the FOLLOW table in place with all its members, and the
loop of `ComputeFollow` terminates: some bound on the number of passes lets
the loop, and `ComputeFollow`, return, that is, a pass reports `added = 0`. -/
theorem c17_follow_loop_terminates :
    (∀ (g : Grammar) (symbol : String),
        0 ≤ (g.ComputeFollowStep symbol).2 ∧
          ∀ k s, mapFind k g.follow = some s →
            ∃ s', mapFind k (g.ComputeFollowStep symbol).1.follow = some s' ∧
              ∀ x ∈ s, x ∈ s') ∧
      (∀ g : Grammar, ∃ fuel, (followLoop fuel g).isSome = true) ∧
      (∀ g : Grammar, ∃ fuel, (g.ComputeFollow fuel).isSome = true) := by
  refine ⟨fun g symbol => ⟨ComputeFollowStep_nonneg g symbol,
    (ComputeFollowStep_phase g symbol).follow.grows⟩, followLoop_terminates, ?_⟩
  intro g
  obtain ⟨fuel, h⟩ := followLoop_terminates
    { g with follow := mapSet g.startSymbol (setInsert ENDMARKER []) g.follow }
  refine ⟨fuel, ?_⟩
  unfold Grammar.ComputeFollow
  obtain ⟨g', hg'⟩ := Option.isSome_iff_exists.mp h
  rw [hg']
  rfl

/-! ## What a pass of `ComputeFollow` that reports `added = 0` has checked -/

theorem sameReads_refl (g : Grammar) : SameReads g g :=
  ⟨rfl, fun _ => rfl, fun _ => rfl⟩

theorem sameReads_symm {g g' : Grammar} (h : SameReads g g') : SameReads g' g :=
  ⟨h.nonterminals.symm, fun k => (h.rules k).symm, fun k => (h.first k).symm⟩

theorem sameReads_trans {g g' g'' : Grammar} (h₁ : SameReads g g') (h₂ : SameReads g' g'') :
    SameReads g g'' :=
  ⟨h₂.nonterminals.trans h₁.nonterminals, fun k => (h₂.rules k).trans (h₁.rules k),
    fun k => (h₂.first k).trans (h₁.first k)⟩

theorem followClosed_of_reads {g g' : Grammar} (A : String) (l : List String)
    (hs : SameReads g g') (hf : ∀ k, mapGet k [] g'.follow = mapGet k [] g.follow)
    (h : FollowClosed g A l) : FollowClosed g' A l := by
  intro α B β hl hB
  rw [hs.nonterminals] at hB
  obtain ⟨h₁, h₂⟩ := h α B β hl hB
  rw [(ComputeFirstWord_reads g g' β hs).1, hf, hf]
  exact ⟨h₁, h₂⟩

theorem followStepBody_reads (symbol : String) :
    ∀ (l : List String) (g : Grammar) (added : Int),
      SameReads g (followStepBody symbol l g added).1
  | [], g, _ => sameReads_refl g
  | x :: beta, g, added => by
    rw [followStepBody_cons]
    split
    · have h₁ := ComputeFirstWord_keeps_reads { g with follow := mapTouch x [] g.follow } beta
      refine sameReads_trans ?_ (followStepBody_reads symbol beta _ _)
      exact ⟨h₁.nonterminals, h₁.rules, h₁.first⟩
    · exact followStepBody_reads symbol beta g added

theorem followStepRules_reads (symbol : String) :
    ∀ (rl : RuleList) (g : Grammar) (added : Int),
      SameReads g (followStepRules symbol rl g added).1
  | [], g, _ => sameReads_refl g
  | rhs :: rest, g, added => by
    unfold followStepRules
    have h₁ := followStepBody_reads symbol rhs g added
    generalize followStepBody symbol rhs g added = r at h₁ ⊢
    obtain ⟨g₁, added₁⟩ := r
    exact sameReads_trans h₁ (followStepRules_reads symbol rest g₁ added₁)

theorem ComputeFollowStep_reads (g : Grammar) (symbol : String) :
    SameReads g (g.ComputeFollowStep symbol).1 := by
  have h₀ : SameReads g { g with rules := mapTouch symbol [] g.rules } :=
    ⟨rfl, fun k => mapGet_mapTouch _ _ _ _, fun _ => rfl⟩
  unfold Grammar.ComputeFollowStep
  dsimp only
  split
  · exact ⟨rfl, fun k => mapGet_mapTouch _ _ _ _, fun _ => rfl⟩
  · exact sameReads_trans h₀ (followStepRules_reads symbol _ _ 0)

theorem followPass_reads :
    ∀ (l : List String) (g : Grammar) (added : Int), SameReads g (followPass l g added).1
  | [], g, _ => sameReads_refl g
  | nt :: rest, g, added => by
    unfold followPass
    have h₁ := ComputeFollowStep_reads g nt
    generalize g.ComputeFollowStep nt = r at h₁ ⊢
    obtain ⟨g₁, n⟩ := r
    exact sameReads_trans h₁ (followPass_reads rest g₁ (added + n))

theorem followStepBody_zero (symbol : String) :
    ∀ (l : List String) (g : Grammar) (added : Int),
      (followStepBody symbol l g added).2 = added →
        (∀ k, mapGet k [] (followStepBody symbol l g added).1.follow = mapGet k [] g.follow) ∧
          FollowClosed g symbol l
  | [], g, added, _ => by
    refine ⟨fun _ => rfl, ?_⟩
    intro α B β hl
    cases α <;> cases hl
  | x :: beta, g, added, h => by
    rw [followStepBody_cons] at h ⊢
    split at h
    · rename_i hx
      rw [if_pos hx]
      have hxn : x ∈ g.nonterminals := (setContains_iff x g.nonterminals).mp hx
      have hk₁ := ComputeFirstWord_keeps_reads { g with follow := mapTouch x [] g.follow } beta
      have hfb := (ComputeFirstWord_reads g { g with follow := mapTouch x [] g.follow } beta
        ⟨rfl, fun _ => rfl, fun _ => rfl⟩).1
      obtain ⟨first', he, -⟩ :=
        ComputeFirstWord_fst { g with follow := mapTouch x [] g.follow } beta
      generalize Grammar.ComputeFirstWord { g with follow := mapTouch x [] g.follow } beta = r
        at he hk₁ hfb h ⊢
      obtain ⟨g₁, firstBeta⟩ := r
      dsimp only at he hk₁ hfb h ⊢
      subst he
      dsimp only at h ⊢
      have hlen := followVisitTable_length symbol x firstBeta beta.isEmpty
        (setContains EPSILON firstBeta) (mapTouch x [] g.follow)
      have hle := (followStepBody_count symbol beta
        { startSymbol := g.startSymbol, rules := g.rules, nonterminals := g.nonterminals,
          terminals := g.terminals, first := first',
          follow := followVisitTable symbol x firstBeta beta.isEmpty
            (setContains EPSILON firstBeta) (mapTouch x [] g.follow) }
        (added +
          (((mapGet x [] (followVisitTable symbol x firstBeta beta.isEmpty
            (setContains EPSILON firstBeta) (mapTouch x [] g.follow))).length : Int) -
            ((mapGet x [] (mapTouch x [] g.follow)).length : Int)))).le
      rw [h] at hle
      have hzero : (mapGet x [] (followVisitTable symbol x firstBeta beta.isEmpty
          (setContains EPSILON firstBeta) (mapTouch x [] g.follow))).length =
          (mapGet x [] (mapTouch x [] g.follow)).length := by
        have := hlen.1
        omega
      obtain ⟨hsame, hcase2, hcase3⟩ := hlen.2 hzero
      rw [hzero, sub_self, add_zero] at h
      obtain ⟨ih₁, ih₂⟩ := followStepBody_zero symbol beta _ added h
      rw [hzero, sub_self, add_zero]
      -- the table after the visit reads like the table before
      have hreads : ∀ k, mapGet k [] (followVisitTable symbol x firstBeta beta.isEmpty
          (setContains EPSILON firstBeta) (mapTouch x [] g.follow)) = mapGet k [] g.follow := by
        intro k
        by_cases hk : k = x
        · rw [hk, hsame, mapGet_mapTouch]
        · rw [followVisitTable_get_other _ _ _ _ _ _ _ hk, mapGet_mapTouch]
      have hs₂ : SameReads g
          { startSymbol := g.startSymbol, rules := g.rules, nonterminals := g.nonterminals,
            terminals := g.terminals, first := first',
            follow := followVisitTable symbol x firstBeta beta.isEmpty
              (setContains EPSILON firstBeta) (mapTouch x [] g.follow) } :=
        ⟨rfl, fun _ => rfl, hk₁.first⟩
      refine ⟨fun k => (ih₁ k).trans (hreads k), ?_⟩
      have ih₂' : FollowClosed g symbol beta :=
        followClosed_of_reads symbol beta (sameReads_symm hs₂) (fun k => (hreads k).symm) ih₂
      intro α B β hl hB
      cases α with
      | nil =>
        simp only [List.nil_append, List.cons.injEq] at hl
        obtain ⟨hxB, hbeta⟩ := hl
        subst hxB
        subst hbeta
        rw [← hfb]
        simp only [mapGet_mapTouch] at hcase2 hcase3
        constructor
        · intro e he
          cases hb : beta.isEmpty with
          | true =>
            have : beta = [] := List.isEmpty_iff.mp hb
            subst this
            have hempty : firstBeta = [] := by
              rw [hfb]
              rfl
            rw [hempty] at he
            simp at he
          | false => exact hcase2 hb e he
        · intro hcond
          apply hcase3
          rcases hcond with hc | hc
          · rw [hc]
            rfl
          · simp [setContains, hc]
      | cons a α' =>
        simp only [List.cons_append, List.cons.injEq] at hl
        exact ih₂' α' B β hl.2 hB
    · rename_i hx
      rw [if_neg hx]
      obtain ⟨ih₁, ih₂⟩ := followStepBody_zero symbol beta g added h
      refine ⟨ih₁, ?_⟩
      intro α B β hl hB
      cases α with
      | nil =>
        simp only [List.nil_append, List.cons.injEq] at hl
        rw [hl.1] at hx
        exact absurd ((setContains_iff B g.nonterminals).mpr hB) hx
      | cons a α' =>
        simp only [List.cons_append, List.cons.injEq] at hl
        exact ih₂ α' B β hl.2 hB

theorem followStepRules_zero (symbol : String) :
    ∀ (rl : RuleList) (g : Grammar) (added : Int),
      (followStepRules symbol rl g added).2 = added →
        (∀ k, mapGet k [] (followStepRules symbol rl g added).1.follow = mapGet k [] g.follow) ∧
          ∀ rhs ∈ rl, FollowClosed g symbol rhs
  | [], g, added, _ => ⟨fun _ => rfl, by simp⟩
  | rhs :: rest, g, added, h => by
    unfold followStepRules at h ⊢
    have hc := (followStepBody_count symbol rhs g added).le
    have hz := followStepBody_zero symbol rhs g added
    have hr := followStepBody_reads symbol rhs g added
    generalize followStepBody symbol rhs g added = r at hc hz hr h ⊢
    obtain ⟨g₁, added₁⟩ := r
    dsimp only at hc hz hr h ⊢
    have hc₂ := (followStepRules_count symbol rest g₁ added₁).le
    rw [h] at hc₂
    have e : added₁ = added := le_antisymm hc₂ hc
    subst e
    obtain ⟨hz₁, hz₂⟩ := hz rfl
    obtain ⟨ih₁, ih₂⟩ := followStepRules_zero symbol rest g₁ added₁ h
    refine ⟨fun k => (ih₁ k).trans (hz₁ k), ?_⟩
    intro body hbody
    rcases List.mem_cons.mp hbody with hb | hb
    · rw [hb]
      exact hz₂
    · exact followClosed_of_reads symbol body (sameReads_symm hr) (fun k => (hz₁ k).symm)
        (ih₂ body hb)

theorem ComputeFollowStep_zero (g : Grammar) (symbol : String)
    (h : (g.ComputeFollowStep symbol).2 = 0) :
    (∀ k, mapGet k [] (g.ComputeFollowStep symbol).1.follow = mapGet k [] g.follow) ∧
      ∀ rhs ∈ mapGet symbol [] g.rules, FollowClosed g symbol rhs := by
  unfold Grammar.ComputeFollowStep at h ⊢
  dsimp only at h ⊢
  split at h
  · cases h
  · rename_i hn
    rw [if_neg hn]
    obtain ⟨h₁, h₂⟩ := followStepRules_zero symbol _ _ 0 h
    refine ⟨h₁, ?_⟩
    intro rhs hrhs
    have := h₂ rhs (by rw [mapGet_mapTouch]; exact hrhs)
    exact @followClosed_of_reads { g with rules := mapTouch symbol [] g.rules } g symbol rhs
      ⟨rfl, fun k => (mapGet_mapTouch symbol k [] g.rules).symm, fun _ => rfl⟩ (fun _ => rfl)
      this

theorem followPass_le :
    ∀ (l : List String) (g : Grammar) (added : Int), added ≤ (followPass l g added).2
  | [], _, _ => le_refl _
  | nt :: rest, g, added => by
    unfold followPass
    have h₁ := ComputeFollowStep_nonneg g nt
    generalize g.ComputeFollowStep nt = r at h₁ ⊢
    obtain ⟨g₁, n⟩ := r
    dsimp only at h₁ ⊢
    have := followPass_le rest g₁ (added + n)
    omega

theorem followPass_zero :
    ∀ (l : List String) (g : Grammar) (added : Int), (followPass l g added).2 = added →
      (∀ k, mapGet k [] (followPass l g added).1.follow = mapGet k [] g.follow) ∧
        ∀ nt ∈ l, ∀ rhs ∈ mapGet nt [] g.rules, FollowClosed g nt rhs
  | [], g, added, _ => ⟨fun _ => rfl, by simp⟩
  | nt :: rest, g, added, h => by
    unfold followPass at h ⊢
    have hn := ComputeFollowStep_nonneg g nt
    have hz := ComputeFollowStep_zero g nt
    have hr := ComputeFollowStep_reads g nt
    generalize g.ComputeFollowStep nt = r at hn hz hr h ⊢
    obtain ⟨g₁, n⟩ := r
    dsimp only at hn hz hr h ⊢
    have hle := followPass_le rest g₁ (added + n)
    rw [h] at hle
    have e : n = 0 := by omega
    subst e
    obtain ⟨hz₁, hz₂⟩ := hz rfl
    rw [add_zero] at h ⊢
    obtain ⟨ih₁, ih₂⟩ := followPass_zero rest g₁ added h
    refine ⟨fun k => (ih₁ k).trans (hz₁ k), ?_⟩
    intro k hk rhs hrhs
    rcases List.mem_cons.mp hk with hk | hk
    · rw [hk] at hrhs ⊢
      exact hz₂ rhs hrhs
    · exact followClosed_of_reads k rhs (sameReads_symm hr) (fun j => (hz₁ j).symm)
        (ih₂ k hk rhs (by rw [hr.rules]; exact hrhs))

theorem followLoop_closed :
    ∀ (fuel : Nat) (g g' : Grammar), followLoop fuel g = some g' →
      ∀ nt ∈ g'.nonterminals, ∀ rhs ∈ mapGet nt [] g'.rules, FollowClosed g' nt rhs
  | 0, _, _, h => by simp [followLoop] at h
  | fuel + 1, g, g', h => by
    unfold followLoop at h
    have hz := followPass_zero g.nonterminals g 0
    have hr := followPass_reads g.nonterminals g 0
    generalize followPass g.nonterminals g 0 = r at hz hr h
    obtain ⟨g₁, added⟩ := r
    dsimp only at hz hr h
    split at h
    · exact followLoop_closed fuel g₁ g' h
    · rename_i ha
      simp only [Option.some.injEq] at h
      subst h
      have ha' : added = 0 := by simpa using ha
      obtain ⟨hz₁, hz₂⟩ := hz ha'
      intro nt hnt rhs hrhs
      rw [hr.nonterminals] at hnt
      rw [hr.rules] at hrhs
      exact followClosed_of_reads nt rhs hr hz₁ (hz₂ nt hnt rhs hrhs)

theorem mapGet_eraseEpsilons (k : String) (m : StrMap StrSet) :
    mapGet k [] (eraseEpsilons m) = setErase EPSILON (mapGet k [] m) := by
  unfold mapGet
  rw [mapFind_eraseEpsilons]
  cases mapFind k m <;> rfl

/-- C16: for every grammar object (every production map, every FIRST table),
when `ComputeFollow` returns, every production `A -> α B β` of a nonterminal
`A` with `B` a nonterminal has `ComputeFirstWord(β)` without EPSILON within
`follow[B]`, and, when `β` is empty or EPSILON is in `ComputeFirstWord(β)`,
`follow[A]` within `follow[B]`. -/
theorem c16_follow_conditions (fuel : Nat) (g g' : Grammar)
    (h : g.ComputeFollow fuel = some g') :
    ∀ A ∈ g'.nonterminals, ∀ rhs ∈ mapGet A [] g'.rules,
      ∀ (α : List String) (B : String) (β : List String), rhs = α ++ B :: β →
        B ∈ g'.nonterminals →
        (∀ e ∈ (g'.ComputeFirstWord β).2, e ≠ EPSILON → e ∈ mapGet B [] g'.follow) ∧
          ((β = [] ∨ EPSILON ∈ (g'.ComputeFirstWord β).2) →
            ∀ e ∈ mapGet A [] g'.follow, e ∈ mapGet B [] g'.follow) := by
  obtain ⟨g₁, hl, hg⟩ := ComputeFollow_eq fuel g g' h
  subst hg
  intro A hA rhs hrhs α B β hsplit hB
  have hclosed := followLoop_closed fuel _ g₁ hl A hA rhs hrhs α B β hsplit hB
  have hcw : (Grammar.ComputeFirstWord { g₁ with follow := eraseEpsilons g₁.follow } β).2 =
      (g₁.ComputeFirstWord β).2 :=
    (ComputeFirstWord_reads g₁ { g₁ with follow := eraseEpsilons g₁.follow } β
      ⟨rfl, fun _ => rfl, fun _ => rfl⟩).1
  rw [hcw]
  dsimp only
  simp only [mapGet_eraseEpsilons]
  constructor
  · intro e he hne
    exact (mem_setErase EPSILON e _).mpr ⟨hclosed.1 e he, hne⟩
  · intro hcond e he
    have he' := (mem_setErase EPSILON e _).mp he
    exact (mem_setErase EPSILON e _).mpr ⟨hclosed.2 hcond e he'.1, he'.2⟩

/-- C16 at the grammar `S -> A B c`, `A -> a | EPSILON`, `B -> b | EPSILON`
with its FIRST table computed: `ComputeFollow` returns within 2 passes, and
the productions of the result satisfy the two conditions; for `S -> A B c`
and the occurrence of `A`, `ComputeFirstWord(B c)` holds EPSILON, so
`follow[S]` is within `follow[A]`. -/
theorem c16_follow_conditions_witness :
    (Grammar.init "S" nullableRules false).ComputeFirst 3 = some nullableState ∧
      ∃ g', nullableState.ComputeFollow 2 = some g' ∧
        (∀ A ∈ g'.nonterminals, ∀ rhs ∈ mapGet A [] g'.rules,
          ∀ (α : List String) (B : String) (β : List String), rhs = α ++ B :: β →
            B ∈ g'.nonterminals →
            (∀ e ∈ (g'.ComputeFirstWord β).2, e ≠ EPSILON → e ∈ mapGet B [] g'.follow) ∧
              ((β = [] ∨ EPSILON ∈ (g'.ComputeFirstWord β).2) →
                ∀ e ∈ mapGet A [] g'.follow, e ∈ mapGet B [] g'.follow)) := by
  have h₂ : (nullableState.ComputeFollow 2).isSome = true := by rfl
  exact ⟨by rfl, (nullableState.ComputeFollow 2).get h₂, (Option.some_get h₂).symm,
    c16_follow_conditions 2 nullableState ((nullableState.ComputeFollow 2).get h₂)
      (Option.some_get h₂).symm⟩

/-- C17 at the grammar object of `S -> A B c`, `A -> a | EPSILON`,
`B -> b | EPSILON` with its FIRST table computed: the call of
`ComputeFollowStep` on `S` returns a count that is not negative, and some
bound lets the loop of `ComputeFollow` return. -/
theorem c17_follow_loop_terminates_witness :
    0 ≤ (nullableState.ComputeFollowStep "S").2 ∧
      (∃ fuel, (followLoop fuel nullableState).isSome = true) ∧
      ∃ fuel, (nullableState.ComputeFollow fuel).isSome = true :=
  ⟨(c17_follow_loop_terminates.1 nullableState "S").1,
    c17_follow_loop_terminates.2.1 nullableState,
    c17_follow_loop_terminates.2.2 nullableState⟩

end TypeScriptNET
